import Mathlib

/-!
Framework string utilities (`src/framework/string_utils.cpp`).

A shallow embedding of the `S15` string helpers and the properties they satisfy.

Conventions of the embedding.

* A `char` is a byte, `CChar = Fin 256`; the cast `(unsigned char)c` is `c.val`.
* A `const char*` argument is an `Option (List CChar)`: `none` is the null pointer and
  `some s` points at the bytes `s`, which are followed in memory by the terminating NUL.
  Reading `*p` at the end of the list therefore gives `0`, and `p + 1` is the tail.
  A list is the content of a C string when it holds no zero byte (`NulFree`); a zero
  byte inside the list ends the string early, as it does in C.
* A writable `char*` buffer is an `Option Buffer`, the memory seen from the pointer,
  addressed by offset.  A function that writes returns the memory after the call.
* `StringCopy` is embedded twice: on a source string apart from the destination
  (`StringCopy`), and on one flat memory in which the pointers are addresses and the two
  buffers may overlap (`StringCopyMem`).
* `int` values are `Int`.  The code never leaves the `int` range on the paths taken:
  `nDestSize - 1` is evaluated only when `nDestSize > 0`, `i` stays at most
  `nDestSize - 1`, and differences of `tolower` results lie in `[-255, 255]`.
-/

namespace S15

/-- One `char` of memory. -/
abbrev CChar := Fin 256

/-- Memory seen from a writable `char*`: the byte at each offset. -/
abbrev Buffer := Nat → CChar

/-- The store `p[i] = c`. -/
def Buffer.write (d : Buffer) (i : Nat) (c : CChar) : Buffer :=
  fun j => if j = i then c else d j

/-- The bytes of a list hold no NUL: the list is exactly the content of a C string. -/
def NulFree (s : List CChar) : Prop := ∀ c ∈ s, c ≠ 0

instance (s : List CChar) : Decidable (NulFree s) :=
  List.decidableBAll (fun c => c ≠ 0) s

/-- C library `strlen`: the number of bytes before the first NUL. -/
def strlen : List CChar → Nat
  | [] => 0
  | c :: rest => if c ≠ 0 then strlen rest + 1 else 0

/-- The `while` loop of `StringCopy`. `rest` is the source from `pSrc + i` on, so that
`pSrc[i]` is its head, or the terminating NUL when it is empty.
```
while (i < nDestSize - 1 && pSrc[i] != '\0') { pDest[i] = pSrc[i]; i++; }
```
Returns the final `i` and the destination memory. -/
def StringCopy.loop (nDestSize : Int) : List CChar → Nat → Buffer → Nat × Buffer
  | [], i, d => (i, d)
  | c :: rest, i, d =>
    if (i : Int) < nDestSize - 1 ∧ c ≠ 0 then
      StringCopy.loop nDestSize rest (i + 1) (d.write i c)
    else (i, d)

/-- `int StringCopy(char* pDest, const char* pSrc, int nDestSize)` for a source string that
the destination does not overlap: the returned `int` and the destination memory after the
call. `StringCopyMem` below is the same code on one memory, where the two may overlap, and
`StringCopyMem_agrees` relates the two.
```
if (!pDest || !pSrc || nDestSize <= 0) return 0;
int i = 0;
while (...) {...}
pDest[i] = '\0';
return i;
``` -/
def StringCopy (pDest : Option Buffer) (pSrc : Option (List CChar)) (nDestSize : Int) :
    Int × Option Buffer :=
  match pDest, pSrc with
  | some d, some s =>
    if nDestSize ≤ 0 then (0, some d)
    else
      let r := StringCopy.loop nDestSize s 0 d
      ((r.1 : Int), some (r.2.write r.1 0))
  | d, _ => (0, d)

/-- The `while` loop of `StringCopy` on one flat memory, in which the two buffers may
overlap: `pDest` and `pSrc` are addresses, and every read `pSrc[i]` sees the stores made
before it. The first argument bounds the number of iterations; `StringCopyMem` passes
`nDestSize`, which the loop cannot use up (`StringCopyMem.loop_fuel`).
```
while (i < nDestSize - 1 && pSrc[i] != '\0') { pDest[i] = pSrc[i]; i++; }
```
Returns the final `i` and the memory. -/
def StringCopyMem.loop (pDest pSrc : Nat) (nDestSize : Int) : Nat → Nat → Buffer → Nat × Buffer
  | 0, i, m => (i, m)
  | fuel + 1, i, m =>
    if (i : Int) < nDestSize - 1 ∧ m (pSrc + i) ≠ 0 then
      StringCopyMem.loop pDest pSrc nDestSize fuel (i + 1) (m.write (pDest + i) (m (pSrc + i)))
    else (i, m)

/-- `int StringCopy(char* pDest, const char* pSrc, int nDestSize)` on one flat memory `m`:
the pointers are addresses (`none` is the null pointer), the source is read from the same
memory that the destination is written to, and the result is the returned `int` with the
memory after the call.
```
if (!pDest || !pSrc || nDestSize <= 0) return 0;
int i = 0;
while (...) {...}
pDest[i] = '\0';
return i;
``` -/
def StringCopyMem (m : Buffer) (pDest pSrc : Option Nat) (nDestSize : Int) : Int × Buffer :=
  match pDest, pSrc with
  | some d, some s =>
    if nDestSize ≤ 0 then (0, m)
    else
      let r := StringCopyMem.loop d s nDestSize nDestSize.toNat 0 m
      ((r.1 : Int), r.2.write (d + r.1) 0)
  | _, _ => (0, m)

/-- Modelled from the spec: the `tolower` of `<ctype.h>`, a library function the code
calls on an `unsigned char` value, as the single-byte ASCII-only mapping: `'A'..'Z'`
(65..90) go to `'a'..'z'` (97..122) and every other value is returned unchanged. -/
def tolower (c : Int) : Int :=
  if 65 ≤ c ∧ c ≤ 90 then c + 32 else c

/-- The read `*s` of a string pointer: the first byte, or the terminating NUL. -/
def deref (s : List CChar) : CChar := s.headD 0

/-- The body of `StringCompareI` for two non-null pointers. `s1++; s2++` is the step to
the tails.
```
while (*s1 && *s2) {
  int c1 = tolower((unsigned char)*s1);
  int c2 = tolower((unsigned char)*s2);
  if (c1 != c2) return c1 - c2;
  s1++; s2++;
}
return tolower((unsigned char)*s1) - tolower((unsigned char)*s2);
``` -/
def StringCompareI.loop : List CChar → List CChar → Int
  | c1 :: r1, c2 :: r2 =>
    if c1 ≠ 0 ∧ c2 ≠ 0 then
      if tolower c1.val ≠ tolower c2.val then tolower c1.val - tolower c2.val
      else StringCompareI.loop r1 r2
    else tolower c1.val - tolower c2.val
  | [], s2 => tolower (0 : CChar).val - tolower (deref s2).val
  | c1 :: _, [] => tolower c1.val - tolower (0 : CChar).val

/-- `int StringCompareI(const char* s1, const char* s2)`.
```
if (!s1 || !s2) return (s1 == s2) ? 0 : (s1 ? 1 : -1);
```
When one of the pointers is null, `s1 == s2` holds exactly when both are. -/
def StringCompareI (s1 s2 : Option (List CChar)) : Int :=
  match s1, s2 with
  | some a, some b => StringCompareI.loop a b
  | none, none => 0
  | some _, none => 1
  | none, some _ => -1

/-- C library `strcmp`: the difference of the first pair of bytes that differ, taken as
`unsigned char`, or `0` when both strings end together. The code only tests the result
against `0`. -/
def strcmp : List CChar → List CChar → Int
  | c1 :: r1, c2 :: r2 =>
    if c1 ≠ 0 ∧ c1 = c2 then strcmp r1 r2 else (c1.val : Int) - (c2.val : Int)
  | [], s2 => ((0 : CChar).val : Int) - ((deref s2).val : Int)
  | c1 :: _, [] => (c1.val : Int) - ((0 : CChar).val : Int)

/-- `bool StringEndsWith(const char* str, const char* suffix)`. The pointer
`str + strLen - suffixLen` is the list with its first `strLen - suffixLen` bytes dropped.
```
if (!str || !suffix) return false;
size_t strLen = strlen(str);
size_t suffixLen = strlen(suffix);
if (suffixLen > strLen) return false;
return strcmp(str + strLen - suffixLen, suffix) == 0;
``` -/
def StringEndsWith (str suffix : Option (List CChar)) : Bool :=
  match str, suffix with
  | some s, some suf =>
    let strLen := strlen s
    let suffixLen := strlen suf
    if suffixLen > strLen then false
    else decide (strcmp (s.drop (strLen - suffixLen)) suf = 0)
  | _, _ => false

/-- `bool StringEndsWithI(const char* str, const char* suffix)`.
```
if (!str || !suffix) return false;
size_t strLen = strlen(str);
size_t suffixLen = strlen(suffix);
if (suffixLen > strLen) return false;
return StringCompareI(str + strLen - suffixLen, suffix) == 0;
``` -/
def StringEndsWithI (str suffix : Option (List CChar)) : Bool :=
  match str, suffix with
  | some s, some suf =>
    let strLen := strlen s
    let suffixLen := strlen suf
    if suffixLen > strLen then false
    else decide (StringCompareI (some (s.drop (strLen - suffixLen))) (some suf) = 0)
  | _, _ => false

/-- C library `strrchr`: a pointer to the last occurrence of `c` in the string, given as
its offset from the start of the string, or `none` for the null pointer when `c` does not
occur. The terminating NUL counts as part of the string, so it is found when `c` is 0. -/
def strrchr : List CChar → CChar → Option Nat
  | [], c => if c = 0 then some 0 else none
  | x :: rest, c =>
    if x = 0 then (if c = 0 then some 0 else none)
    else
      match strrchr rest c with
      | some k => some (k + 1)
      | none => if x = c then some 0 else none

/-- The comparison `p > q` of two pointers that are null or point into one string: offsets
compare as numbers, and the null pointer (address 0) is below every pointer into the
string. -/
def ptrGt : Option Nat → Option Nat → Bool
  | some i, some j => decide (i > j)
  | some _, none => true
  | none, _ => false

/-- `const char* GetFileExtension(const char* pPath)`; 46, 47 and 92 are `'.'`, `'/'` and
the backslash. The result is the string read from the returned pointer: the path from
`pDot + 1` on, or the empty string literal.
```
if (!pPath) return "";
const char* pDot = strrchr(pPath, '.');
const char* pSlash = strrchr(pPath, '/');
const char* pBackslash = strrchr(pPath, '\\');
const char* pLastSlash = pSlash > pBackslash ? pSlash : pBackslash;
if (pDot && (!pLastSlash || pDot > pLastSlash)) return pDot + 1;
return "";
``` -/
def GetFileExtension (pPath : Option (List CChar)) : List CChar :=
  match pPath with
  | none => []
  | some p =>
    let pDot := strrchr p 46
    let pSlash := strrchr p 47
    let pBackslash := strrchr p 92
    let pLastSlash := if ptrGt pSlash pBackslash then pSlash else pBackslash
    match pDot with
    | some k => if pLastSlash = none ∨ ptrGt (some k) pLastSlash then p.drop (k + 1) else []
    | none => []

/-- `const char* GetFilename(const char* pPath)`. The result is the string read from the
returned pointer: the path from `pLastSlash + 1` on, the whole path, or the empty string
literal.
```
if (!pPath) return "";
const char* pSlash = strrchr(pPath, '/');
const char* pBackslash = strrchr(pPath, '\\');
const char* pLastSlash = pSlash > pBackslash ? pSlash : pBackslash;
if (pLastSlash) return pLastSlash + 1;
return pPath;
``` -/
def GetFilename (pPath : Option (List CChar)) : List CChar :=
  match pPath with
  | none => []
  | some p =>
    let pSlash := strrchr p 47
    let pBackslash := strrchr p 92
    let pLastSlash := if ptrGt pSlash pBackslash then pSlash else pBackslash
    match pLastSlash with
    | some k => p.drop (k + 1)
    | none => p

/-! Tonemapping (`src/framework/color_grading.cpp`).

The code is embedded twice. In `ACESFilm` a `float` is the rational number it stands for
and the operations are exact: the constants are the decimals written in the code, and
rounding, overflow to infinity and NaN are left out. In `ACESFilm32`, further down, a
`float` is an IEEE binary32 value and every operation rounds; it is used where rounding or
overflow decides a property. -/

/-- `struct Vector3` with its `float` fields `x`, `y`, `z`. -/
structure Vector3 where
  x : ℚ
  y : ℚ
  z : ℚ

/-- `static inline float Saturate(float value)`:
`return std::min(1.0f, std::max(0.0f, value));` -/
def Saturate (value : ℚ) : ℚ := min 1 (max 0 value)

/-- `static inline float ClampNegative(float value)`:
`return std::max(0.0f, value);` -/
def ClampNegative (value : ℚ) : ℚ := max 0 value

/-- `Vector3 ACESFilm(const Vector3& x)`.
```
const float a = 2.51f; const float b = 0.03f; const float c = 2.43f;
const float d = 0.59f; const float e = 0.14f;
float cx = ClampNegative(x.x); float cy = ClampNegative(x.y); float cz = ClampNegative(x.z);
result.x = Saturate((cx * (a * cx + b)) / (cx * (c * cx + d) + e));
result.y = Saturate((cy * (a * cy + b)) / (cy * (c * cy + d) + e));
result.z = Saturate((cz * (a * cz + b)) / (cz * (c * cz + d) + e));
``` -/
def ACESFilm (x : Vector3) : Vector3 :=
  let a : ℚ := 251 / 100
  let b : ℚ := 3 / 100
  let c : ℚ := 243 / 100
  let d : ℚ := 59 / 100
  let e : ℚ := 14 / 100
  let cx := ClampNegative x.x
  let cy := ClampNegative x.y
  let cz := ClampNegative x.z
  { x := Saturate ((cx * (a * cx + b)) / (cx * (c * cx + d) + e))
    y := Saturate ((cy * (a * cy + b)) / (cy * (c * cy + d) + e))
    z := Saturate ((cz * (a * cz + b)) / (cz * (c * cz + d) + e)) }

/-- An IEEE 754 binary32 value, the `float` of the code: NaN, an infinity with its sign,
or a finite value, given as the rational number it is. The two zeros are one value here;
the code cannot tell them apart once `ClampNegative` has run, since `std::max(0.0f, v)`
returns its first argument for both. -/
inductive F32 where
  | nan : F32
  | inf (negative : Bool) : F32
  | fin (q : ℚ) : F32
deriving DecidableEq

/-- The position of the leading bit of `n` (the floor of its binary logarithm, and 0 for
`n = 0`), by halving; the first argument bounds the number of halvings and `n` itself is
always enough (`F32.log2Fuel_eq`). -/
def F32.log2Fuel : Nat → Nat → Nat
  | 0, _ => 0
  | fuel + 1, n => if n < 2 then 0 else F32.log2Fuel fuel (n / 2) + 1

/-- Rounding of an exact result to binary32, to nearest with ties to even. With
`|q| = n / d`, `E` is the floor of the binary logarithm of `|q|`, `e` is the exponent of
the last mantissa bit (24 bits of mantissa, and no exponent below -149, which gives the
subnormal numbers), `mant` is `|q| / 2^e` rounded to an integer, and a result of
magnitude `2^128` or more is an infinity. -/
def F32.round (q : ℚ) : F32 :=
  if q = 0 then .fin 0
  else
    let n : Nat := q.num.natAbs
    let d : Nat := q.den
    let l : Int := (F32.log2Fuel n n : Int) - (F32.log2Fuel d d : Int)
    let E : Int := if n * 2 ^ (-l).toNat < d * 2 ^ l.toNat then l - 1 else l
    let e : Int := max (E - 23) (-149)
    let N : Nat := n * 2 ^ (-e).toNat
    let D : Nat := d * 2 ^ e.toNat
    let fl : Nat := N / D
    let r : Nat := N % D
    let mant : Nat :=
      if 2 * r < D then fl
      else if D < 2 * r then fl + 1
      else if fl % 2 = 0 then fl else fl + 1
    if 2 ^ 128 ≤ mant * 2 ^ e.toNat ∧ 0 ≤ e then .inf (decide (q < 0))
    else
      let mag : ℚ := mkRat ((mant * 2 ^ e.toNat : Nat) : Int) (2 ^ (-e).toNat)
      .fin (if q < 0 then -mag else mag)

/-- The `float` product `a * b`: the exact product rounded; an infinity times zero, and
anything with NaN, is NaN. -/
def F32.mul : F32 → F32 → F32
  | .fin a, .fin b => F32.round (a * b)
  | .fin a, .inf s => if a = 0 then .nan else .inf (xor s (decide (a < 0)))
  | .inf s, .fin b => if b = 0 then .nan else .inf (xor s (decide (b < 0)))
  | .inf s, .inf t => .inf (xor s t)
  | _, _ => .nan

/-- The `float` sum `a + b`: the exact sum rounded; infinities of opposite sign, and
anything with NaN, give NaN. -/
def F32.add : F32 → F32 → F32
  | .fin a, .fin b => F32.round (a + b)
  | .fin _, .inf s => .inf s
  | .inf s, .fin _ => .inf s
  | .inf s, .inf t => if s = t then .inf s else .nan
  | _, _ => .nan

/-- The `float` quotient `a / b`: the exact quotient rounded; `0 / 0`, an infinity over
an infinity, and anything with NaN, give NaN. -/
def F32.div : F32 → F32 → F32
  | .fin a, .fin b =>
    if b = 0 then (if a = 0 then .nan else .inf (decide (a < 0))) else F32.round (a / b)
  | .fin _, .inf _ => .fin 0
  | .inf s, .fin b => .inf (xor s (decide (b < 0)))
  | _, _ => .nan

/-- The `float` comparison `a < b`, false whenever an argument is NaN. -/
def F32.lt : F32 → F32 → Bool
  | .fin a, .fin b => decide (a < b)
  | .fin _, .inf s => !s
  | .inf s, .fin _ => s
  | .inf s, .inf t => s && !t
  | _, _ => false

/-- `std::max(a, b)`, which is `(a < b) ? b : a`. -/
def F32.max (a b : F32) : F32 := if F32.lt a b then b else a

/-- `std::min(a, b)`, which is `(b < a) ? b : a`. -/
def F32.min (a b : F32) : F32 := if F32.lt b a then b else a

/-- `struct Vector3` with binary32 fields. -/
structure Vector3f where
  x : F32
  y : F32
  z : F32
deriving DecidableEq

/-- `Saturate` in binary32: `return std::min(1.0f, std::max(0.0f, value));` -/
def Saturate32 (value : F32) : F32 := F32.min (.fin 1) (F32.max (.fin 0) value)

/-- `ClampNegative` in binary32: `return std::max(0.0f, value);` -/
def ClampNegative32 (value : F32) : F32 := F32.max (.fin 0) value

/-- `ACESFilm` in binary32: the constants are the `float` nearest to the decimals of the
code, and each multiplication, addition and division rounds to binary32 on its own (no
fused multiply-add, no wider intermediate type).
```
const float a = 2.51f; const float b = 0.03f; const float c = 2.43f;
const float d = 0.59f; const float e = 0.14f;
float cx = ClampNegative(x.x); float cy = ClampNegative(x.y); float cz = ClampNegative(x.z);
result.x = Saturate((cx * (a * cx + b)) / (cx * (c * cx + d) + e));
result.y = Saturate((cy * (a * cy + b)) / (cy * (c * cy + d) + e));
result.z = Saturate((cz * (a * cz + b)) / (cz * (c * cz + d) + e));
``` -/
def ACESFilm32 (x : Vector3f) : Vector3f :=
  let a : F32 := F32.round (251 / 100)
  let b : F32 := F32.round (3 / 100)
  let c : F32 := F32.round (243 / 100)
  let d : F32 := F32.round (59 / 100)
  let e : F32 := F32.round (14 / 100)
  let cx := ClampNegative32 x.x
  let cy := ClampNegative32 x.y
  let cz := ClampNegative32 x.z
  { x := Saturate32 (F32.div (F32.mul cx (F32.add (F32.mul a cx) b))
      (F32.add (F32.mul cx (F32.add (F32.mul c cx) d)) e))
    y := Saturate32 (F32.div (F32.mul cy (F32.add (F32.mul a cy) b))
      (F32.add (F32.mul cy (F32.add (F32.mul c cy) d)) e))
    z := Saturate32 (F32.div (F32.mul cz (F32.add (F32.mul a cz) b))
      (F32.add (F32.mul cz (F32.add (F32.mul c cz) d)) e)) }

/-! Notions used to state the properties (not part of the code). -/

/-- Two bytes agree up to the case of ASCII letters: they are equal, or one is an
upper-case letter `'A'..'Z'` and the other the lower-case letter 32 above it. -/
def SameUpToCase (x y : CChar) : Prop :=
  x = y ∨ (65 ≤ x.val ∧ x.val ≤ 90 ∧ y.val = x.val + 32) ∨
    (65 ≤ y.val ∧ y.val ≤ 90 ∧ x.val = y.val + 32)

instance (x y : CChar) : Decidable (SameUpToCase x y) :=
  inferInstanceAs (Decidable (x = y ∨ (65 ≤ x.val ∧ x.val ≤ 90 ∧ y.val = x.val + 32) ∨
    (65 ≤ y.val ∧ y.val ≤ 90 ∧ x.val = y.val + 32)))

/-- The buffer holds a zero byte among its first `n` bytes. -/
def NullTerminatedWithin (d : Buffer) (n : Int) : Prop :=
  ∃ j : Nat, (j : Int) < n ∧ d j = 0

/-- The memory that holds the given bytes from address 0 on and NUL everywhere else. -/
def Buffer.ofList (bytes : List CChar) : Buffer := fun a => bytes.getD a 0

/-- The memory holds the C string `s` at address `a`: the bytes of `s`, none of them NUL,
followed by the terminating NUL. -/
def HoldsStr (m : Buffer) (a : Nat) (s : List CChar) : Prop :=
  NulFree s ∧ ∀ j, j < s.length + 1 → m (a + j) = s.getD j 0

instance (m : Buffer) (a : Nat) (s : List CChar) : Decidable (HoldsStr m a s) :=
  inferInstanceAs (Decidable (NulFree s ∧ ∀ j, j < s.length + 1 → m (a + j) = s.getD j 0))

/-- The case fold of one byte, as an unsigned value: `'A'..'Z'` go to `'a'..'z'`, every
other byte (digits, punctuation, bytes from 0x80 up) is unchanged. -/
def foldByte (c : CChar) : Nat :=
  if 65 ≤ c.val ∧ c.val ≤ 90 then c.val + 32 else c.val

/-- The case fold of a string, byte by byte. -/
def fold (s : List CChar) : List Nat := s.map foldByte

/-- A path separator: `'/'` (47) or the backslash (92). -/
def IsSep (c : CChar) : Prop := c = 47 ∨ c = 92

instance (c : CChar) : Decidable (IsSep c) :=
  inferInstanceAs (Decidable (c = 47 ∨ c = 92))

/-- No byte of the list is a path separator. -/
def SepFree (s : List CChar) : Prop := ∀ c ∈ s, ¬ IsSep c

instance (s : List CChar) : Decidable (SepFree s) :=
  List.decidableBAll (fun c => ¬ IsSep c) s

/-- The rational function `f(x) = (x * (a*x + b)) / (x * (c*x + d) + e)` of the tonemap,
with `a = 2.51`, `b = 0.03`, `c = 2.43`, `d = 0.59`, `e = 0.14`. -/
def acesCurve (x : ℚ) : ℚ :=
  (x * (251 / 100 * x + 3 / 100)) / (x * (243 / 100 * x + 59 / 100) + 14 / 100)

/-- The scalar map that `ACESFilm` writes out once per channel: the curve at the clamped
input, saturated. -/
def tonemapChannel (v : ℚ) : ℚ := Saturate (acesCurve (ClampNegative v))

/-- The order `a ≤ b` on binary32 values, false whenever an argument is NaN. -/
def F32.le : F32 → F32 → Bool
  | .fin a, .fin b => decide (a ≤ b)
  | .fin _, .inf s => !s
  | .inf s, .fin _ => s
  | .inf s, .inf t => s || !t
  | _, _ => false

/-- The curve value that `ACESFilm32` computes for one input channel, before `Saturate`. -/
def acesQuot32 (v : F32) : F32 :=
  F32.div
    (F32.mul (ClampNegative32 v)
      (F32.add (F32.mul (F32.round (251 / 100)) (ClampNegative32 v)) (F32.round (3 / 100))))
    (F32.add
      (F32.mul (ClampNegative32 v)
        (F32.add (F32.mul (F32.round (243 / 100)) (ClampNegative32 v)) (F32.round (59 / 100))))
      (F32.round (14 / 100)))

/-- The first NUL of a list, if any, lies within it. -/
theorem strlen_le_length : ∀ s : List CChar, strlen s ≤ s.length
  | [] => by simp [strlen]
  | c :: rest => by
    have := strlen_le_length rest
    by_cases h : c ≠ 0 <;> simp [strlen, h]; omega

/-- For a list without NUL, `strlen` is the length of the list. -/
theorem strlen_eq_length : ∀ s : List CChar, NulFree s → strlen s = s.length
  | [], _ => by simp [strlen]
  | c :: rest, h => by
    have hc : c ≠ 0 := h c (by simp)
    have := strlen_eq_length rest (fun x hx => h x (by simp [hx]))
    simp [strlen, hc, this]

/-- The bytes before index `strlen s` are not NUL. -/
theorem getD_ne_zero_of_lt_strlen : ∀ (s : List CChar) (j : Nat), j < strlen s → s.getD j 0 ≠ 0
  | [], j, h => by simp [strlen] at h
  | c :: rest, j, h => by
    by_cases hc : c ≠ 0
    · cases j with
      | zero => simpa using hc
      | succ j =>
        simp [strlen, hc] at h
        simpa using getD_ne_zero_of_lt_strlen rest j h
    · simp [strlen, hc] at h

/-- The loop leaves `i` advanced by the smaller of the remaining source length and the
remaining room `nDestSize - 1 - i`. -/
theorem StringCopy.loop_fst (n : Int) : ∀ (rest : List CChar) (i : Nat) (d : Buffer),
    (StringCopy.loop n rest i d).1 = i + min (strlen rest) (n - 1 - i).toNat
  | [], i, d => by simp [StringCopy.loop, strlen]
  | c :: rest, i, d => by
    by_cases h : (i : Int) < n - 1 ∧ c ≠ 0
    · have ih := StringCopy.loop_fst n rest (i + 1) (d.write i c)
      simp only [StringCopy.loop, if_pos h, strlen, if_pos h.2, ih]
      have := h.1
      push_cast
      omega
    · simp only [StringCopy.loop, if_neg h, strlen]
      by_cases hc : c ≠ 0
      · have : ¬ (i : Int) < n - 1 := fun hi => h ⟨hi, hc⟩
        simp only [if_pos hc]
        omega
      · simp [hc]

/-- The loop changes no byte below its initial `i` or from its final `i` on. -/
theorem StringCopy.loop_frame (n : Int) : ∀ (rest : List CChar) (i : Nat) (d : Buffer) (j : Nat),
    j < i ∨ (StringCopy.loop n rest i d).1 ≤ j → (StringCopy.loop n rest i d).2 j = d j
  | [], i, d, j, _ => by simp [StringCopy.loop]
  | c :: rest, i, d, j, hj => by
    by_cases h : (i : Int) < n - 1 ∧ c ≠ 0
    · simp only [StringCopy.loop, if_pos h] at hj ⊢
      have hfst := StringCopy.loop_fst n rest (i + 1) (d.write i c)
      rw [StringCopy.loop_frame n rest (i + 1) (d.write i c) j (by omega)]
      have : j ≠ i := by omega
      simp [Buffer.write, this]
    · simp only [StringCopy.loop, if_neg h]

/-- Between its initial and final `i`, the loop has stored the source bytes. -/
theorem StringCopy.loop_copied (n : Int) : ∀ (rest : List CChar) (i : Nat) (d : Buffer) (j : Nat),
    i ≤ j → j < (StringCopy.loop n rest i d).1 →
      (StringCopy.loop n rest i d).2 j = rest.getD (j - i) 0
  | [], i, d, j, h1, h2 => by simp [StringCopy.loop] at h2; omega
  | c :: rest, i, d, j, h1, h2 => by
    by_cases h : (i : Int) < n - 1 ∧ c ≠ 0
    · simp only [StringCopy.loop, if_pos h] at h2 ⊢
      rcases Nat.eq_or_lt_of_le h1 with rfl | hlt
      · rw [StringCopy.loop_frame n rest (i + 1) (d.write i c) i (by omega)]
        simp [Buffer.write]
      · rw [StringCopy.loop_copied n rest (i + 1) (d.write i c) j (by omega) h2]
        obtain ⟨k, rfl⟩ : ∃ k, j = i + 1 + k := ⟨j - (i + 1), by omega⟩
        have e1 : i + 1 + k - (i + 1) = k := by omega
        have e2 : i + 1 + k - i = k + 1 := by omega
        simp [e1, e2]
    · simp only [StringCopy.loop, if_neg h] at h2
      omega

/-- The call with valid arguments, unfolded: the loop from `i = 0`, then the store of
the terminator at the final `i`. -/
theorem StringCopy_valid (d : Buffer) (s : List CChar) (n : Int) (hn : 1 ≤ n) :
    StringCopy (some d) (some s) n =
      (((min (strlen s) (n - 1).toNat : Nat) : Int),
        some ((StringCopy.loop n s 0 d).2.write (min (strlen s) (n - 1).toNat) 0)) := by
  have hfst := StringCopy.loop_fst n s 0 d
  have e : (n - 1 - ((0 : Nat) : Int)).toNat = (n - 1).toNat := by simp
  rw [e, Nat.zero_add] at hfst
  have hn' : ¬ n ≤ 0 := by omega
  simp only [StringCopy, if_neg hn', hfst]

/-- The returned count of a valid call, as an `int`. -/
theorem StringCopy_valid_fst (d : Buffer) (s : List CChar) (n : Int) (hn : 1 ≤ n) :
    (StringCopy (some d) (some s) n).1 = min (strlen s : Int) (n - 1) := by
  rw [StringCopy_valid d s n hn]
  show ((min (strlen s) (n - 1).toNat : Nat) : Int) = _
  omega

/-- The guard of `StringCopy`: nothing is stored and 0 is returned. -/
theorem StringCopy_inert (pDest : Option Buffer) (pSrc : Option (List CChar)) (n : Int)
    (h : pDest = none ∨ pSrc = none ∨ n ≤ 0) :
    StringCopy pDest pSrc n = (0, pDest) := by
  cases pDest <;> cases pSrc <;> simp_all [StringCopy]

/-- C2. With a null destination, a null source or a capacity `n ≤ 0`, `StringCopy`
returns 0 and the destination (when there is one) is the memory it was given. -/
theorem StringCopy_invalid (pDest : Option Buffer) (pSrc : Option (List CChar)) (n : Int)
    (h : pDest = none ∨ pSrc = none ∨ n ≤ 0) :
    StringCopy pDest pSrc n = (0, pDest) :=
  StringCopy_inert pDest pSrc n h

/-- C2, at the call `StringCopy(dest, "AB", -1)`. -/
theorem StringCopy_invalid_witness :
    ((some (fun _ => 65) : Option Buffer) = none ∨ (some [65, 66] : Option (List CChar)) = none ∨
        (-1 : Int) ≤ 0) ∧
      StringCopy (some (fun _ => 65)) (some [65, 66]) (-1) = (0, some (fun _ => 65)) :=
  ⟨Or.inr (Or.inr (by decide)),
    StringCopy_invalid (some (fun _ => 65)) (some [65, 66]) (-1) (Or.inr (Or.inr (by decide)))⟩

/-- C3 fails for a null source: `StringCopy(dest, nullptr, 4)` on a destination filled
with `'A'` returns at the guard, and the destination still has no zero byte among its
first 4 bytes. -/
theorem StringCopy_null_source_not_terminated :
    ¬ ∃ d', (StringCopy (some (fun _ => 65)) none 4).2 = some d' ∧
      NullTerminatedWithin d' 4 := by
  rintro ⟨d', hd, j, hj, h0⟩
  have hd' : d' = fun _ => 65 := by
    simpa [StringCopy] using hd.symm
  rw [hd'] at h0
  have h65 : (65 : CChar) = 0 := h0
  exact absurd h65 (by decide)

/-- C3, amended. After `StringCopy(dest, src, n)` with `dest` non-null and `n ≥ 1`, the
destination holds a zero byte among its first `n` bytes when the source is non-null; with
a null source the destination is the memory it was given. -/
theorem StringCopy_null_terminated (d : Buffer) (pSrc : Option (List CChar)) (n : Int)
    (hn : 1 ≤ n) :
    ∃ d', (StringCopy (some d) pSrc n).2 = some d' ∧
      (pSrc ≠ none → NullTerminatedWithin d' n) ∧ (pSrc = none → d' = d) := by
  cases pSrc with
  | none => exact ⟨d, by simp [StringCopy], by simp, fun _ => rfl⟩
  | some s =>
    refine ⟨_, by rw [StringCopy_valid d s n hn], fun _ => ?_, by simp⟩
    exact ⟨min (strlen s) (n - 1).toNat, by omega, by simp only [Buffer.write, if_true]⟩

/-- C3 amended, at the call `StringCopy(dest, "Hello", 4)`. -/
theorem StringCopy_null_terminated_witness :
    (1 : Int) ≤ 4 ∧ ∃ d', (StringCopy (some (fun _ => 65)) (some [72, 101, 108, 108, 111]) 4).2
        = some d' ∧
      ((some [72, 101, 108, 108, 111] : Option (List CChar)) ≠ none → NullTerminatedWithin d' 4) ∧
      ((some [72, 101, 108, 108, 111] : Option (List CChar)) = none → d' = fun _ => 65) :=
  ⟨by decide,
    StringCopy_null_terminated (fun _ => 65) (some [72, 101, 108, 108, 111]) 4 (by decide)⟩

/-- C5 fails at capacity 10: `"123456789"` is copied whole and `"1234567890"` is
truncated, and both calls return 9. -/
theorem StringCopy_return_ambiguous :
    ¬ ((StringCopy (some (fun _ => 0)) (some [49, 50, 51, 52, 53, 54, 55, 56, 57]) 10).1 =
        (StringCopy (some (fun _ => 0)) (some [49, 50, 51, 52, 53, 54, 55, 56, 57, 48]) 10).1 →
      ((strlen [49, 50, 51, 52, 53, 54, 55, 56, 57] : Int) > 10 - 1 ∧
          (strlen [49, 50, 51, 52, 53, 54, 55, 56, 57, 48] : Int) > 10 - 1) ∨
        ((strlen [49, 50, 51, 52, 53, 54, 55, 56, 57] : Int) ≤ 10 - 1 ∧
          (strlen [49, 50, 51, 52, 53, 54, 55, 56, 57, 48] : Int) ≤ 10 - 1)) := by
  decide

/-- C5, amended. For non-null destinations, a capacity `n ≥ 1` and two non-null sources:
if the two calls return the same value and that value is below `n - 1`, then both sources
were copied whole, and the value is the length of each. -/
theorem StringCopy_return_below_limit (d1 d2 : Buffer) (s1 s2 : List CChar) (n : Int)
    (hn : 1 ≤ n)
    (heq : (StringCopy (some d1) (some s1) n).1 = (StringCopy (some d2) (some s2) n).1)
    (hlt : (StringCopy (some d1) (some s1) n).1 < n - 1) :
    ((strlen s1 : Int) ≤ n - 1 ∧ (strlen s2 : Int) ≤ n - 1) ∧
      (StringCopy (some d1) (some s1) n).1 = strlen s1 ∧
      (StringCopy (some d2) (some s2) n).1 = strlen s2 := by
  rw [StringCopy_valid_fst d1 s1 n hn] at heq hlt ⊢
  rw [StringCopy_valid_fst d2 s2 n hn] at heq ⊢
  omega

/-- C5 amended, at capacity 10 with the sources `"AB"` and `"CD"`. -/
theorem StringCopy_return_below_limit_witness :
    (1 : Int) ≤ 10 ∧
    (StringCopy (some (fun _ => 0)) (some [65, 66]) 10).1 =
      (StringCopy (some (fun _ => 0)) (some [67, 68]) 10).1 ∧
    (StringCopy (some (fun _ => 0)) (some [65, 66]) 10).1 < 10 - 1 ∧
    ((strlen [65, 66] : Int) ≤ 10 - 1 ∧ (strlen [67, 68] : Int) ≤ 10 - 1) ∧
      (StringCopy (some (fun _ => 0)) (some [65, 66]) 10).1 = strlen [65, 66] ∧
      (StringCopy (some (fun _ => 0)) (some [67, 68]) 10).1 = strlen [67, 68] :=
  ⟨by decide, by decide, by decide,
    StringCopy_return_below_limit (fun _ => 0) (fun _ => 0) [65, 66] [67, 68] 10
      (by decide) (by decide) (by decide)⟩


/-- On a byte, `tolower` is the case fold. -/
theorem tolower_val (c : CChar) : tolower (c.val : Int) = (foldByte c : Int) := by
  unfold tolower foldByte
  have := c.isLt
  split_ifs <;> omega

/-- The case fold of a non-NUL byte is not 0. -/
theorem foldByte_pos (c : CChar) (hc : c ≠ 0) : 0 < foldByte c := by
  have h : c.val ≠ 0 := fun h => hc (Fin.ext h)
  unfold foldByte
  split_ifs <;> omega

/-- The case fold of NUL is 0. -/
theorem foldByte_zero : foldByte 0 = 0 := by decide

/-- `tolower` of NUL is 0. -/
theorem tolower_zero : tolower 0 = 0 := by decide

/-- Bytes that agree up to case have the same case fold. -/
theorem foldByte_eq_of_sameUpToCase (x y : CChar) (h : SameUpToCase x y) :
    foldByte x = foldByte y := by
  rcases h with rfl | ⟨h1, h2, h3⟩ | ⟨h1, h2, h3⟩
  · rfl
  · unfold foldByte; split_ifs <;> omega
  · unfold foldByte; split_ifs <;> omega

/-- Swapping the arguments negates the result of the comparison loop. -/
theorem StringCompareI.loop_neg : ∀ a b : List CChar,
    StringCompareI.loop a b = - StringCompareI.loop b a
  | [], [] => by simp [StringCompareI.loop, deref]
  | [], c :: r => by simp [StringCompareI.loop, deref]
  | c :: r, [] => by simp [StringCompareI.loop, deref]
  | c1 :: r1, c2 :: r2 => by
    have ih := StringCompareI.loop_neg r1 r2
    by_cases h : c1 ≠ 0 ∧ c2 ≠ 0
    · have h' : c2 ≠ 0 ∧ c1 ≠ 0 := ⟨h.2, h.1⟩
      by_cases ht : tolower c1.val ≠ tolower c2.val
      · have ht' : tolower c2.val ≠ tolower c1.val := fun e => ht e.symm
        simp only [StringCompareI.loop, if_pos h, if_pos h', if_pos ht, if_pos ht']
        omega
      · have ht' : ¬ tolower c2.val ≠ tolower c1.val := fun e => ht (fun e' => e e'.symm)
        simp only [StringCompareI.loop, if_pos h, if_pos h', if_neg ht, if_neg ht', ih]
    · have h' : ¬ (c2 ≠ 0 ∧ c1 ≠ 0) := fun e => h ⟨e.2, e.1⟩
      simp only [StringCompareI.loop, if_neg h, if_neg h']
      omega

/-- Strings that agree up to case position by position compare equal. -/
theorem StringCompareI.loop_sameUpToCase : ∀ a b : List CChar,
    List.Forall₂ SameUpToCase a b → StringCompareI.loop a b = 0
  | _, _, .nil => by simp [StringCompareI.loop, deref]
  | c1 :: r1, c2 :: r2, .cons h hr => by
    have ih := StringCompareI.loop_sameUpToCase r1 r2 hr
    have hf := foldByte_eq_of_sameUpToCase c1 c2 h
    have ht : tolower c1.val = tolower c2.val := by rw [tolower_val, tolower_val, hf]
    simp [StringCompareI.loop, ht, ih]

/-- One iteration of the comparison loop on two non-NUL bytes, in terms of the fold. -/
theorem StringCompareI.loop_nulFree_cons (c1 c2 : CChar) (r1 r2 : List CChar)
    (h1 : c1 ≠ 0) (h2 : c2 ≠ 0) :
    StringCompareI.loop (c1 :: r1) (c2 :: r2) =
      if foldByte c1 ≠ foldByte c2 then (foldByte c1 : Int) - (foldByte c2 : Int)
      else StringCompareI.loop r1 r2 := by
  have h : c1 ≠ 0 ∧ c2 ≠ 0 := ⟨h1, h2⟩
  simp only [StringCompareI.loop, if_pos h, tolower_val]
  by_cases hf : foldByte c1 = foldByte c2
  · simp [hf]
  · have : (foldByte c1 : Int) ≠ (foldByte c2 : Int) := by exact_mod_cast hf
    simp [hf, this]

/-- The lexicographic order on two non-empty lists of numbers. -/
theorem lex_cons_nat (x y : Nat) (xs ys : List Nat) :
    List.Lex (· < ·) (x :: xs) (y :: ys) ↔ x < y ∨ (x = y ∧ List.Lex (· < ·) xs ys) := by
  constructor
  · intro h
    cases h with
    | cons h => exact Or.inr ⟨rfl, h⟩
    | rel h => exact Or.inl h
  · rintro (h | ⟨rfl, h⟩)
    · exact List.Lex.rel h
    · exact List.Lex.cons h

/-- On C strings, the sign of the comparison loop is the lexicographic order of the
folded strings. -/
theorem StringCompareI.loop_sign : ∀ a b : List CChar, NulFree a → NulFree b →
    (StringCompareI.loop a b < 0 ↔ List.Lex (· < ·) (fold a) (fold b)) ∧
    (StringCompareI.loop a b = 0 ↔ fold a = fold b) ∧
    (0 < StringCompareI.loop a b ↔ List.Lex (· < ·) (fold b) (fold a))
  | [], [], _, _ => by
    simp [StringCompareI.loop, deref, fold, tolower]
  | [], c :: r, _, hb => by
    have hc : c ≠ 0 := hb c (by simp)
    have := foldByte_pos c hc
    have e : StringCompareI.loop [] (c :: r) = - (foldByte c : Int) := by
      simp [StringCompareI.loop, deref, tolower_val, tolower_zero]
    rw [e]
    refine ⟨⟨fun _ => List.Lex.nil, fun _ => by omega⟩, ⟨fun h => by omega, fun h => by simp [fold] at h⟩,
      ⟨fun h => by omega, fun h => by simp [fold] at h⟩⟩
  | c :: r, [], ha, _ => by
    have hc : c ≠ 0 := ha c (by simp)
    have := foldByte_pos c hc
    have e : StringCompareI.loop (c :: r) [] = (foldByte c : Int) := by
      simp [StringCompareI.loop, tolower_val, tolower_zero]
    rw [e]
    refine ⟨⟨fun h => by omega, fun h => by simp [fold] at h⟩, ⟨fun h => by omega, fun h => by simp [fold] at h⟩,
      ⟨fun _ => List.Lex.nil, fun _ => by omega⟩⟩
  | c1 :: r1, c2 :: r2, ha, hb => by
    have h1 : c1 ≠ 0 := ha c1 (by simp)
    have h2 : c2 ≠ 0 := hb c2 (by simp)
    have ih := StringCompareI.loop_sign r1 r2 (fun x hx => ha x (by simp [hx]))
      (fun x hx => hb x (by simp [hx]))
    rw [StringCompareI.loop_nulFree_cons c1 c2 r1 r2 h1 h2]
    simp only [fold, List.map_cons, lex_cons_nat, List.cons.injEq] at ih ⊢
    by_cases hf : foldByte c1 = foldByte c2
    · have hn : ¬ foldByte c1 ≠ foldByte c2 := fun e => e hf
      rw [if_neg hn]
      rw [ih.1, ih.2.1, ih.2.2]
      refine ⟨⟨fun h => Or.inr ⟨hf, h⟩, fun h => ?_⟩, ⟨fun h => ⟨hf, h⟩, fun h => h.2⟩,
        ⟨fun h => Or.inr ⟨hf.symm, h⟩, fun h => ?_⟩⟩
      · rcases h with h | h
        · omega
        · exact h.2
      · rcases h with h | h
        · omega
        · exact h.2
    · rw [if_pos hf]
      refine ⟨⟨fun h => Or.inl (by omega), fun h => ?_⟩, ⟨fun h => by omega, fun h => absurd h.1 hf⟩,
        ⟨fun h => Or.inl (by omega), fun h => ?_⟩⟩
      · rcases h with h | h
        · omega
        · exact absurd h.1 hf
      · rcases h with h | h
        · omega
        · exact absurd h.1.symm hf

/-- On C strings, `strcmp` returns 0 exactly for equal strings. -/
theorem strcmp_eq_zero_iff : ∀ a b : List CChar, NulFree a → NulFree b →
    (strcmp a b = 0 ↔ a = b)
  | [], [], _, _ => by simp [strcmp, deref]
  | [], c :: r, _, hb => by
    have hc : c ≠ 0 := hb c (by simp)
    have hv : c.val ≠ 0 := fun h => hc (Fin.ext h)
    simp only [strcmp, deref, List.headD_cons, Fin.val_zero]
    constructor
    · intro h; omega
    · intro h; simp at h
  | c :: r, [], ha, _ => by
    have hc : c ≠ 0 := ha c (by simp)
    have hv : c.val ≠ 0 := fun h => hc (Fin.ext h)
    simp only [strcmp, Fin.val_zero]
    constructor
    · intro h; omega
    · intro h; simp at h
  | c1 :: r1, c2 :: r2, ha, hb => by
    have h1 : c1 ≠ 0 := ha c1 (by simp)
    have ih := strcmp_eq_zero_iff r1 r2 (fun x hx => ha x (by simp [hx]))
      (fun x hx => hb x (by simp [hx]))
    by_cases h : c1 = c2
    · have hc : c1 ≠ 0 ∧ c1 = c2 := ⟨h1, h⟩
      simp only [strcmp, if_pos hc, ih, List.cons.injEq]
      exact ⟨fun e => ⟨h, e⟩, fun e => e.2⟩
    · have hc : ¬ (c1 ≠ 0 ∧ c1 = c2) := fun e => h e.2
      have hv : c1.val ≠ c2.val := fun e => h (Fin.ext e)
      simp only [strcmp, if_neg hc, List.cons.injEq]
      constructor
      · intro e; omega
      · intro e; exact absurd e.1 h

/-- A pointer into a C string points at a C string. -/
theorem NulFree.drop {s : List CChar} (h : NulFree s) (k : Nat) : NulFree (s.drop k) :=
  fun c hc => h c (List.mem_of_mem_drop hc)

/-- On C strings, `StringEndsWith` compares the last `length suffix` bytes. -/
theorem StringEndsWith_nulFree (s suf : List CChar) (hs : NulFree s) (hsuf : NulFree suf) :
    StringEndsWith (some s) (some suf) = true ↔
      suf.length ≤ s.length ∧ s.drop (s.length - suf.length) = suf := by
  simp only [StringEndsWith, strlen_eq_length s hs, strlen_eq_length suf hsuf]
  by_cases h : suf.length > s.length
  · simp only [if_pos h]
    constructor
    · intro h'; cases h'
    · intro h'; omega
  · simp only [if_neg h, decide_eq_true_eq, strcmp_eq_zero_iff _ _ (hs.drop _) hsuf]
    constructor
    · intro h'; exact ⟨by omega, h'⟩
    · intro h'; exact h'.2

/-- C6. For two non-null strings of equal length that agree at every position up to the
case of ASCII letters (`List.Forall₂ SameUpToCase`), `StringCompareI` returns 0 in both
argument orders. -/
theorem StringCompareI_same_up_to_case (a b : List CChar)
    (h : List.Forall₂ SameUpToCase a b) :
    StringCompareI (some a) (some b) = 0 ∧ StringCompareI (some b) (some a) = 0 := by
  have h0 := StringCompareI.loop_sameUpToCase a b h
  refine ⟨h0, ?_⟩
  show StringCompareI.loop b a = 0
  rw [StringCompareI.loop_neg b a, h0]
  rfl

/-- C6, at `"hi"` against `"HI"`. -/
theorem StringCompareI_same_up_to_case_witness :
    List.Forall₂ SameUpToCase [104, 105] [72, 73] ∧
      StringCompareI (some [104, 105]) (some [72, 73]) = 0 ∧
      StringCompareI (some [72, 73]) (some [104, 105]) = 0 :=
  ⟨.cons (by decide) (.cons (by decide) .nil),
    StringCompareI_same_up_to_case [104, 105] [72, 73]
      (.cons (by decide) (.cons (by decide) .nil))⟩

/-- C7. For non-null strings `a` and `b`, `StringCompareI(a, b)` is negative exactly when
`fold a` is lexicographically below `fold b`, zero exactly when `fold a = fold b`, and
positive exactly when `fold b` is lexicographically below `fold a`; `fold` lower-cases
`'A'..'Z'` and leaves every other byte, as an unsigned value, unchanged. -/
theorem StringCompareI_sign (a b : List CChar) (ha : NulFree a) (hb : NulFree b) :
    (StringCompareI (some a) (some b) < 0 ↔ List.Lex (· < ·) (fold a) (fold b)) ∧
    (StringCompareI (some a) (some b) = 0 ↔ fold a = fold b) ∧
    (0 < StringCompareI (some a) (some b) ↔ List.Lex (· < ·) (fold b) (fold a)) :=
  StringCompareI.loop_sign a b ha hb

/-- C7, at `"Zeta"` against `"alpha"` with a byte above 0x7F appended to each. -/
theorem StringCompareI_sign_witness :
    NulFree [90, 101, 116, 97, 200] ∧ NulFree [97, 108, 112, 104, 97, 200] ∧
    (StringCompareI (some [90, 101, 116, 97, 200]) (some [97, 108, 112, 104, 97, 200]) < 0 ↔
      List.Lex (· < ·) (fold [90, 101, 116, 97, 200]) (fold [97, 108, 112, 104, 97, 200])) ∧
    (StringCompareI (some [90, 101, 116, 97, 200]) (some [97, 108, 112, 104, 97, 200]) = 0 ↔
      fold [90, 101, 116, 97, 200] = fold [97, 108, 112, 104, 97, 200]) ∧
    (0 < StringCompareI (some [90, 101, 116, 97, 200]) (some [97, 108, 112, 104, 97, 200]) ↔
      List.Lex (· < ·) (fold [97, 108, 112, 104, 97, 200]) (fold [90, 101, 116, 97, 200])) :=
  ⟨by decide, by decide,
    StringCompareI_sign [90, 101, 116, 97, 200] [97, 108, 112, 104, 97, 200]
      (by decide) (by decide)⟩

/-- C8. For all arguments, each possibly null, `StringCompareI(a, b)` is the negation of
`StringCompareI(b, a)`. -/
theorem StringCompareI_antisymm (s1 s2 : Option (List CChar)) :
    StringCompareI s1 s2 = - StringCompareI s2 s1 := by
  cases s1 with
  | none => cases s2 <;> rfl
  | some a =>
    cases s2 with
    | none => rfl
    | some b => exact StringCompareI.loop_neg a b

/-- C9. `StringCompareI(null, null)` is 0, and for every non-null string `s`, the empty
one included, `StringCompareI(null, s)` is negative and `StringCompareI(s, null)` is
positive. -/
theorem StringCompareI_null :
    StringCompareI none none = 0 ∧
      ∀ s : List CChar, StringCompareI none (some s) < 0 ∧ 0 < StringCompareI (some s) none :=
  ⟨rfl, fun _ => ⟨show (-1 : Int) < 0 by decide, show (0 : Int) < 1 by decide⟩⟩

/-- C10. For non-null strings, `StringEndsWith(str, suffix)` is true exactly when
`suffix` is no longer than `str` and the last `length suffix` bytes of `str` are `suffix`,
which is to say `str = p ++ suffix` for some `p`; a suffix longer than `str` gives false,
and so does a null argument on either side. -/
theorem StringEndsWith_iff (s suf : List CChar) (hs : NulFree s) (hsuf : NulFree suf) :
    (StringEndsWith (some s) (some suf) = true ↔
      suf.length ≤ s.length ∧ s.drop (s.length - suf.length) = suf) ∧
    (StringEndsWith (some s) (some suf) = true ↔ ∃ p, s = p ++ suf) ∧
    (s.length < suf.length → StringEndsWith (some s) (some suf) = false) ∧
    StringEndsWith none (some suf) = false ∧ StringEndsWith (some s) none = false ∧
    StringEndsWith none none = false := by
  have key := StringEndsWith_nulFree s suf hs hsuf
  refine ⟨key, ?_, ?_, rfl, rfl, rfl⟩
  · rw [key]
    constructor
    · rintro ⟨_, h⟩
      exact ⟨s.take (s.length - suf.length), by
        conv_lhs => rw [← List.take_append_drop (s.length - suf.length) s]
        rw [h]⟩
    · rintro ⟨p, rfl⟩
      refine ⟨by simp, ?_⟩
      have e : (p ++ suf).length - suf.length = p.length := by simp
      rw [e, List.drop_left]
  · intro hlt
    cases hb : StringEndsWith (some s) (some suf) with
    | false => rfl
    | true => have := (key.mp hb).1; omega

/-- C10, at `"t.t"` with the suffix `".t"`. -/
theorem StringEndsWith_iff_witness :
    NulFree [116, 46, 116] ∧ NulFree [46, 116] ∧
    (StringEndsWith (some [116, 46, 116]) (some [46, 116]) = true ↔
      List.length [46, 116] ≤ List.length [116, 46, 116] ∧
        List.drop (List.length [116, 46, 116] - List.length [46, 116]) [116, 46, 116]
          = ([46, 116] : List CChar)) ∧
    (StringEndsWith (some [116, 46, 116]) (some [46, 116]) = true ↔
      ∃ p, ([116, 46, 116] : List CChar) = p ++ [46, 116]) ∧
    (List.length [116, 46, 116] < List.length [46, 116] →
      StringEndsWith (some [116, 46, 116]) (some [46, 116]) = false) ∧
    StringEndsWith none (some [46, 116]) = false ∧
    StringEndsWith (some [116, 46, 116]) none = false ∧
    StringEndsWith none none = false :=
  ⟨by decide, by decide, StringEndsWith_iff [116, 46, 116] [46, 116] (by decide) (by decide)⟩

/-- The pointer `s + strlen(s)` points at the terminating NUL. -/
theorem deref_drop_strlen : ∀ s : List CChar, deref (s.drop (strlen s)) = 0
  | [] => rfl
  | c :: rest => by
    by_cases hc : c ≠ 0
    · simpa [strlen, hc] using deref_drop_strlen rest
    · have h0 : c = 0 := by simpa using hc
      simp [strlen, h0, deref]

/-- Against the empty string, `strcmp` returns 0 for a pointer at a NUL. -/
theorem strcmp_nil_of_deref (t : List CChar) (h : deref t = 0) : strcmp t [] = 0 := by
  cases t with
  | nil => simp [strcmp, deref]
  | cons c r =>
    have hc : c = 0 := by simpa [deref] using h
    simp [strcmp, hc]

/-- Against the empty string, the comparison loop returns 0 for a pointer at a NUL. -/
theorem StringCompareI.loop_nil_of_deref (t : List CChar) (h : deref t = 0) :
    StringCompareI.loop t [] = 0 := by
  cases t with
  | nil => simp [StringCompareI.loop, deref]
  | cons c r =>
    have hc : c = 0 := by simpa [deref] using h
    simp [StringCompareI.loop, hc]

/-- On C strings, `StringEndsWithI` compares the case folds of the last `length suffix`
bytes and of the suffix. -/
theorem StringEndsWithI_nulFree (s suf : List CChar) (hs : NulFree s) (hsuf : NulFree suf) :
    StringEndsWithI (some s) (some suf) = true ↔
      suf.length ≤ s.length ∧ fold (s.drop (s.length - suf.length)) = fold suf := by
  simp only [StringEndsWithI, strlen_eq_length s hs, strlen_eq_length suf hsuf]
  by_cases h : suf.length > s.length
  · simp only [if_pos h]
    constructor
    · intro h'; cases h'
    · intro h'; omega
  · have hz := (StringCompareI.loop_sign _ suf (hs.drop (s.length - suf.length)) hsuf).2.1
    simp only [if_neg h, decide_eq_true_eq, StringCompareI, hz]
    constructor
    · intro h'; exact ⟨by omega, h'⟩
    · intro h'; exact h'.2

/-- C11. For non-null strings, `StringEndsWithI(str, suffix)` is true exactly when
`suffix` is no longer than `str` and the last `length suffix` bytes of `str` equal
`suffix` position by position after the fold of `'A'..'Z'` to `'a'..'z'`; a suffix longer
than `str` gives false, and so does a null argument on either side. -/
theorem StringEndsWithI_iff (s suf : List CChar) (hs : NulFree s) (hsuf : NulFree suf) :
    (StringEndsWithI (some s) (some suf) = true ↔
      suf.length ≤ s.length ∧ fold (s.drop (s.length - suf.length)) = fold suf) ∧
    (s.length < suf.length → StringEndsWithI (some s) (some suf) = false) ∧
    StringEndsWithI none (some suf) = false ∧ StringEndsWithI (some s) none = false ∧
    StringEndsWithI none none = false := by
  have key := StringEndsWithI_nulFree s suf hs hsuf
  refine ⟨key, ?_, rfl, rfl, rfl⟩
  intro hlt
  cases hb : StringEndsWithI (some s) (some suf) with
  | false => rfl
  | true => have := (key.mp hb).1; omega

/-- C11, at `"t.T"` with the suffix `".t"`. -/
theorem StringEndsWithI_iff_witness :
    NulFree [116, 46, 84] ∧ NulFree [46, 116] ∧
    (StringEndsWithI (some [116, 46, 84]) (some [46, 116]) = true ↔
      List.length ([46, 116] : List CChar) ≤ List.length ([116, 46, 84] : List CChar) ∧
        fold (List.drop (List.length ([116, 46, 84] : List CChar) -
          List.length ([46, 116] : List CChar)) [116, 46, 84]) = fold [46, 116]) ∧
    (List.length ([116, 46, 84] : List CChar) < List.length ([46, 116] : List CChar) →
      StringEndsWithI (some [116, 46, 84]) (some [46, 116]) = false) ∧
    StringEndsWithI none (some [46, 116]) = false ∧
    StringEndsWithI (some [116, 46, 84]) none = false ∧
    StringEndsWithI none none = false :=
  ⟨by decide, by decide, StringEndsWithI_iff [116, 46, 84] [46, 116] (by decide) (by decide)⟩

/-- C12. For every non-null string `s`, the empty one included, `StringEndsWith(s, "")`
and `StringEndsWithI(s, "")` are both true. -/
theorem StringEndsWith_empty_suffix (s : List CChar) :
    StringEndsWith (some s) (some []) = true ∧ StringEndsWithI (some s) (some []) = true := by
  have hd := deref_drop_strlen s
  have h0 : ¬ (0 > strlen s) := by omega
  constructor
  · simp only [StringEndsWith, strlen, if_neg h0, Nat.sub_zero, decide_eq_true_eq]
    exact strcmp_nil_of_deref _ hd
  · simp only [StringEndsWithI, strlen, if_neg h0, Nat.sub_zero, decide_eq_true_eq,
      StringCompareI]
    exact StringCompareI.loop_nil_of_deref _ hd

/-- A character that does not occur in a C string is not found. -/
theorem strrchr_of_not_mem (c : CChar) (hc : c ≠ 0) : ∀ p : List CChar, c ∉ p →
    strrchr p c = none
  | [], _ => by simp [strrchr, hc]
  | x :: rest, h => by
    have hx : x ≠ c := fun e => h (by simp [e])
    have ih := strrchr_of_not_mem c hc rest (fun e => h (by simp [e]))
    by_cases h0 : x = 0
    · simp [strrchr, h0, hc]
    · simp [strrchr, h0, ih, hx]

/-- The last occurrence of `c` in a C string is found at its offset. -/
theorem strrchr_append_cons (c : CChar) (hc : c ≠ 0) (post : List CChar) (hpost : c ∉ post) :
    ∀ pre : List CChar, NulFree pre → strrchr (pre ++ c :: post) c = some pre.length
  | [], _ => by
    simp [strrchr, hc, strrchr_of_not_mem c hc post hpost]
  | x :: pre, h => by
    have hx : x ≠ 0 := h x (by simp)
    have ih := strrchr_append_cons c hc post hpost pre (fun y hy => h y (by simp [hy]))
    simp [strrchr, hx, ih]

/-- A search for `c` does not see what follows the last byte of a prefix, when `c` occurs
neither at that byte nor after it. -/
theorem strrchr_append_cons_of_ne (c : CChar) (hc : c ≠ 0) (x : CChar) (hx0 : x ≠ 0)
    (hxc : x ≠ c) (post : List CChar) (hpost : c ∉ post) :
    ∀ pre : List CChar, NulFree pre → strrchr (pre ++ x :: post) c = strrchr pre c
  | [], _ => by
    simp [strrchr, hc, hx0, hxc, strrchr_of_not_mem c hc post hpost]
  | y :: pre, h => by
    have hy : y ≠ 0 := h y (by simp)
    have ih := strrchr_append_cons_of_ne c hc x hx0 hxc post hpost pre
      (fun z hz => h z (by simp [hz]))
    simp [strrchr, hy, ih]

/-- A pointer found for a character other than NUL lies inside the string. -/
theorem strrchr_lt_length (c : CChar) (hc : c ≠ 0) : ∀ (p : List CChar) (k : Nat),
    strrchr p c = some k → k < p.length
  | [], k, h => by simp [strrchr, hc] at h
  | x :: rest, k, h => by
    by_cases h0 : x = 0
    · simp [strrchr, h0, hc] at h
    · simp only [strrchr, if_neg h0] at h
      cases hr : strrchr rest c with
      | none =>
        rw [hr] at h
        by_cases hx : x = c
        · simp [hx] at h
          simp [← h]
        · simp [hx] at h
      | some j =>
        rw [hr] at h
        have := strrchr_lt_length c hc rest j hr
        simp at h
        simp [← h, this]

/-- Every list either has no byte with a given property or splits at the last such byte. -/
theorem last_split (P : CChar → Prop) : ∀ p : List CChar,
    (∀ c ∈ p, ¬ P c) ∨ ∃ pre x post, p = pre ++ x :: post ∧ P x ∧ ∀ c ∈ post, ¬ P c
  | [] => Or.inl (by simp)
  | y :: rest => by
    rcases last_split P rest with h | ⟨pre, x, post, hp, hx, hpost⟩
    · by_cases hy : P y
      · exact Or.inr ⟨[], y, rest, rfl, hy, h⟩
      · refine Or.inl ?_
        intro c hc
        rcases List.mem_cons.mp hc with rfl | hc
        · exact hy
        · exact h c hc
    · exact Or.inr ⟨y :: pre, x, post, by rw [hp]; rfl, hx, hpost⟩

/-- The pointer `pLastSlash` of a C string split at its last separator. -/
theorem lastSlash_of_split (pre name : List CChar) (sep : CChar) (hsep : IsSep sep)
    (hname : SepFree name) (hp : NulFree (pre ++ sep :: name)) :
    (if ptrGt (strrchr (pre ++ sep :: name) 47) (strrchr (pre ++ sep :: name) 92)
      then strrchr (pre ++ sep :: name) 47 else strrchr (pre ++ sep :: name) 92)
      = some pre.length := by
  have hpre : NulFree pre := fun c hc => hp c (by simp [hc])
  have h47 : (47 : CChar) ∉ name := fun h => hname 47 h (Or.inl rfl)
  have h92 : (92 : CChar) ∉ name := fun h => hname 92 h (Or.inr rfl)
  rcases hsep with rfl | rfl
  · rw [strrchr_append_cons 47 (by decide) name h47 pre hpre,
      strrchr_append_cons_of_ne 92 (by decide) 47 (by decide) (by decide) name h92 pre hpre]
    cases hb : strrchr pre 92 with
    | none => simp [ptrGt]
    | some j =>
      have := strrchr_lt_length 92 (by decide) pre j hb
      simp [ptrGt, this]
  · rw [strrchr_append_cons 92 (by decide) name h92 pre hpre,
      strrchr_append_cons_of_ne 47 (by decide) 92 (by decide) (by decide) name h47 pre hpre]
    cases hb : strrchr pre 47 with
    | none => simp [ptrGt]
    | some j =>
      have := strrchr_lt_length 47 (by decide) pre j hb
      have hnot : ¬ j > pre.length := by omega
      simp [ptrGt, hnot]

/-- The pointer `pLastSlash` of a C string without separator is null. -/
theorem lastSlash_of_sepFree (p : List CChar) (hp : SepFree p) :
    (if ptrGt (strrchr p 47) (strrchr p 92) then strrchr p 47 else strrchr p 92) = none := by
  have h47 : (47 : CChar) ∉ p := fun h => hp 47 h (Or.inl rfl)
  have h92 : (92 : CChar) ∉ p := fun h => hp 92 h (Or.inr rfl)
  rw [strrchr_of_not_mem 47 (by decide) p h47, strrchr_of_not_mem 92 (by decide) p h92]
  rfl

/-- `GetFilename` of a path split at its last separator is what follows the separator. -/
theorem GetFilename_of_split (pre name : List CChar) (sep : CChar) (hsep : IsSep sep)
    (hname : SepFree name) (hp : NulFree (pre ++ sep :: name)) :
    GetFilename (some (pre ++ sep :: name)) = name := by
  simp only [GetFilename, lastSlash_of_split pre name sep hsep hname hp]
  simp

/-- `GetFilename` of a path without separator is the path. -/
theorem GetFilename_of_sepFree (p : List CChar) (hp : SepFree p) :
    GetFilename (some p) = p := by
  simp only [GetFilename, lastSlash_of_sepFree p hp]

/-- The pointer `pLastSlash`, when not null, lies inside the string. -/
theorem lastSlash_lt_length (p : List CChar) (j : Nat)
    (h : (if ptrGt (strrchr p 47) (strrchr p 92) then strrchr p 47 else strrchr p 92)
      = some j) : j < p.length := by
  by_cases hg : ptrGt (strrchr p 47) (strrchr p 92) = true
  · rw [if_pos hg] at h
    exact strrchr_lt_length 47 (by decide) p j h
  · rw [if_neg hg] at h
    exact strrchr_lt_length 92 (by decide) p j h

/-- `GetFileExtension` of a path split at its last dot, with no separator after it, is
what follows the dot. -/
theorem GetFileExtension_of_split (pre ext : List CChar) (hp : NulFree (pre ++ 46 :: ext))
    (hdot : (46 : CChar) ∉ ext) (hsep : SepFree ext) :
    GetFileExtension (some (pre ++ 46 :: ext)) = ext := by
  have hpre : NulFree pre := fun c hc => hp c (by simp [hc])
  have h47 : (47 : CChar) ∉ ext := fun h => hsep 47 h (Or.inl rfl)
  have h92 : (92 : CChar) ∉ ext := fun h => hsep 92 h (Or.inr rfl)
  simp only [GetFileExtension, strrchr_append_cons 46 (by decide) ext hdot pre hpre,
    strrchr_append_cons_of_ne 47 (by decide) 46 (by decide) (by decide) ext h47 pre hpre,
    strrchr_append_cons_of_ne 92 (by decide) 46 (by decide) (by decide) ext h92 pre hpre]
  have hcond : (if ptrGt (strrchr pre 47) (strrchr pre 92) then strrchr pre 47
      else strrchr pre 92) = none ∨
      ptrGt (some pre.length) (if ptrGt (strrchr pre 47) (strrchr pre 92) then strrchr pre 47
        else strrchr pre 92) = true := by
    cases hL : (if ptrGt (strrchr pre 47) (strrchr pre 92) then strrchr pre 47
        else strrchr pre 92) with
    | none => exact Or.inl rfl
    | some j =>
      have := lastSlash_lt_length pre j hL
      exact Or.inr (by simp [ptrGt, this])
  rw [if_pos hcond]
  simp

/-- `GetFileExtension` of a path without dot is empty. -/
theorem GetFileExtension_of_no_dot (p : List CChar) (hdot : (46 : CChar) ∉ p) :
    GetFileExtension (some p) = [] := by
  simp only [GetFileExtension, strrchr_of_not_mem 46 (by decide) p hdot]

/-- `GetFileExtension` of a path with no dot after its last separator is empty. -/
theorem GetFileExtension_of_dotless_name (pre name : List CChar) (sep : CChar)
    (hsep : IsSep sep) (hname : SepFree name) (hdot : (46 : CChar) ∉ name)
    (hp : NulFree (pre ++ sep :: name)) :
    GetFileExtension (some (pre ++ sep :: name)) = [] := by
  have hpre : NulFree pre := fun c hc => hp c (by simp [hc])
  have hs0 : sep ≠ 0 := hp sep (by simp)
  have hs46 : sep ≠ 46 := by
    rcases hsep with rfl | rfl <;> decide
  simp only [GetFileExtension, lastSlash_of_split pre name sep hsep hname hp,
    strrchr_append_cons_of_ne 46 (by decide) sep hs0 hs46 name hdot pre hpre]
  cases hd : strrchr pre 46 with
  | none => rfl
  | some j =>
    have := strrchr_lt_length 46 (by decide) pre j hd
    have hnot : ¬ j > pre.length := by omega
    simp [ptrGt, hnot]

/-- `GetFileExtension` of a path that ends in a dot is empty. -/
theorem GetFileExtension_of_trailing_dot (pre : List CChar) (hp : NulFree (pre ++ [46])) :
    GetFileExtension (some (pre ++ [46])) = [] := by
  have hpre : NulFree pre := fun c hc => hp c (by simp [hc])
  simp only [GetFileExtension, strrchr_append_cons 46 (by decide) [] (by simp) pre hpre]
  split_ifs <;> simp

/-- C13. For a non-null path whose last `'.'` is followed by no separator (the path is
`pre ++ '.' :: ext` with no `'.'`, `'/'` or backslash in `ext`), `GetFileExtension`
returns exactly `ext`, the bytes after that dot; so `".gitignore"` gives `"gitignore"` and
`"archive.tar.gz"` gives `"gz"`. -/
theorem GetFileExtension_after_last_dot (pre ext : List CChar)
    (hp : NulFree (pre ++ 46 :: ext)) (hdot : (46 : CChar) ∉ ext) (hsep : SepFree ext) :
    GetFileExtension (some (pre ++ 46 :: ext)) = ext ∧
    GetFileExtension (some [46, 103, 105, 116, 105, 103, 110, 111, 114, 101])
      = [103, 105, 116, 105, 103, 110, 111, 114, 101] ∧
    GetFileExtension (some [97, 114, 99, 104, 105, 118, 101, 46, 116, 97, 114, 46, 103, 122])
      = [103, 122] :=
  ⟨GetFileExtension_of_split pre ext hp hdot hsep, by decide, by decide⟩

/-- C13, at `"a/b.c/.hidden"`. -/
theorem GetFileExtension_after_last_dot_witness :
    NulFree ([97, 47, 98, 46, 99, 47] ++ 46 :: [104, 105, 100, 100, 101, 110]) ∧
    (46 : CChar) ∉ [104, 105, 100, 100, 101, 110] ∧
    SepFree [104, 105, 100, 100, 101, 110] ∧
    (GetFileExtension (some ([97, 47, 98, 46, 99, 47] ++ 46 :: [104, 105, 100, 100, 101, 110]))
        = [104, 105, 100, 100, 101, 110] ∧
      GetFileExtension (some [46, 103, 105, 116, 105, 103, 110, 111, 114, 101])
        = [103, 105, 116, 105, 103, 110, 111, 114, 101] ∧
      GetFileExtension (some [97, 114, 99, 104, 105, 118, 101, 46, 116, 97, 114, 46, 103, 122])
        = [103, 122]) :=
  ⟨by decide, by decide, by decide,
    GetFileExtension_after_last_dot [97, 47, 98, 46, 99, 47] [104, 105, 100, 100, 101, 110]
      (by decide) (by decide) (by decide)⟩

/-- C14. `GetFileExtension` returns the empty string for the null path, for the empty
path, for every path without `'.'`, for every path with no `'.'` after its last separator
(so when all its dots are in directory components), and for every path that ends in
`'.'`. -/
theorem GetFileExtension_empty :
    GetFileExtension none = [] ∧ GetFileExtension (some []) = [] ∧
    (∀ p : List CChar, NulFree p → (46 : CChar) ∉ p → GetFileExtension (some p) = []) ∧
    (∀ (pre name : List CChar) (sep : CChar), NulFree (pre ++ sep :: name) → IsSep sep →
      SepFree name → (46 : CChar) ∉ name → GetFileExtension (some (pre ++ sep :: name)) = []) ∧
    (∀ pre : List CChar, NulFree (pre ++ [46]) → GetFileExtension (some (pre ++ [46])) = []) :=
  ⟨rfl, rfl, fun p _ hdot => GetFileExtension_of_no_dot p hdot,
    fun pre name sep hp hsep hname hdot =>
      GetFileExtension_of_dotless_name pre name sep hsep hname hdot hp,
    fun pre hp => GetFileExtension_of_trailing_dot pre hp⟩

/-- C14, at `"noext"`, `"path.dir/noext"` and `"file."`. -/
theorem GetFileExtension_empty_witness :
    GetFileExtension (some [110, 111, 101, 120, 116]) = [] ∧
    GetFileExtension (some ([112, 97, 116, 104, 46, 100, 105, 114] ++ 47 :: [110, 111, 101, 120, 116]))
      = [] ∧
    GetFileExtension (some ([102, 105, 108, 101] ++ [46])) = [] :=
  ⟨GetFileExtension_empty.2.2.1 [110, 111, 101, 120, 116] (by decide) (by decide),
    GetFileExtension_empty.2.2.2.1 [112, 97, 116, 104, 46, 100, 105, 114] [110, 111, 101, 120, 116]
      47 (by decide) (by decide) (by decide) (by decide),
    GetFileExtension_empty.2.2.2.2 [102, 105, 108, 101] (by decide)⟩

/-- C15. For a non-null path `p`, `GetFilename` returns the bytes after the last
separator of `p` (`'/'` or backslash, whichever comes later), and all of `p` when it has
no separator; the result is a suffix of `p` without separator. The mixed path
`"C:/Windows\System32/file.dll"` gives `"file.dll"`. -/
theorem GetFilename_after_last_sep (p : List CChar) (hp : NulFree p) :
    (∀ (pre name : List CChar) (sep : CChar), p = pre ++ sep :: name → IsSep sep →
      SepFree name → GetFilename (some p) = name) ∧
    (SepFree p → GetFilename (some p) = p) ∧
    GetFilename (some p) <:+ p ∧ SepFree (GetFilename (some p)) ∧
    GetFilename (some [67, 58, 47, 87, 105, 110, 100, 111, 119, 115, 92, 83, 121, 115, 116,
      101, 109, 51, 50, 47, 102, 105, 108, 101, 46, 100, 108, 108])
      = [102, 105, 108, 101, 46, 100, 108, 108] := by
  have h1 : ∀ (pre name : List CChar) (sep : CChar), p = pre ++ sep :: name → IsSep sep →
      SepFree name → GetFilename (some p) = name := by
    intro pre name sep hsplit hsep hname
    subst hsplit
    exact GetFilename_of_split pre name sep hsep hname hp
  refine ⟨h1, GetFilename_of_sepFree p, ?_, ?_, by decide⟩
  · rcases last_split IsSep p with h | ⟨pre, x, post, hsplit, hx, hpost⟩
    · rw [GetFilename_of_sepFree p h]
    · rw [h1 pre post x hsplit hx hpost, hsplit]
      exact ⟨pre ++ [x], by simp⟩
  · rcases last_split IsSep p with h | ⟨pre, x, post, hsplit, hx, hpost⟩
    · rw [GetFilename_of_sepFree p h]
      exact h
    · rw [h1 pre post x hsplit hx hpost]
      exact hpost

/-- C15, at `"a/b\c.d"`. -/
theorem GetFilename_after_last_sep_witness :
    NulFree [97, 47, 98, 92, 99, 46, 100] ∧
    GetFilename (some [97, 47, 98, 92, 99, 46, 100]) = [99, 46, 100] ∧
    GetFilename (some [97, 47, 98, 92, 99, 46, 100]) <:+ [97, 47, 98, 92, 99, 46, 100] ∧
    SepFree (GetFilename (some [97, 47, 98, 92, 99, 46, 100])) :=
  ⟨by decide,
    (GetFilename_after_last_sep [97, 47, 98, 92, 99, 46, 100] (by decide)).1
      [97, 47, 98] [99, 46, 100] 92 rfl (by decide) (by decide),
    (GetFilename_after_last_sep [97, 47, 98, 92, 99, 46, 100] (by decide)).2.2.1,
    (GetFilename_after_last_sep [97, 47, 98, 92, 99, 46, 100] (by decide)).2.2.2.1⟩

/-- C16. For every path whose last character is `'/'` or the backslash, `GetFilename`
returns the empty string, and so it does for the empty path. -/
theorem GetFilename_trailing_sep (pre : List CChar) (sep : CChar) (hsep : IsSep sep)
    (hp : NulFree (pre ++ [sep])) :
    GetFilename (some (pre ++ [sep])) = [] ∧ GetFilename (some []) = [] :=
  ⟨GetFilename_of_split pre [] sep hsep (by intro c hc; simp at hc) hp, rfl⟩

/-- C16, at `"C:\"`. -/
theorem GetFilename_trailing_sep_witness :
    IsSep 92 ∧ NulFree ([67, 58] ++ [92]) ∧
    GetFilename (some ([67, 58] ++ [92])) = [] ∧ GetFilename (some []) = [] :=
  ⟨by decide, by decide, GetFilename_trailing_sep [67, 58] 92 (by decide) (by decide)⟩

/-- Each channel of `ACESFilm` is the scalar map at the same input channel. -/
theorem ACESFilm_channels (v : Vector3) :
    ACESFilm v = ⟨tonemapChannel v.x, tonemapChannel v.y, tonemapChannel v.z⟩ := rfl

/-- The denominator of the curve is positive on non-negative inputs: the division is a
true division. -/
theorem acesCurve_den_pos (x : ℚ) (hx : 0 ≤ x) :
    0 < x * (243 / 100 * x + 59 / 100) + 14 / 100 := by
  have : 0 ≤ x * (243 / 100 * x + 59 / 100) := mul_nonneg hx (by linarith)
  linarith

/-- The curve is non-negative on non-negative inputs. -/
theorem acesCurve_nonneg (x : ℚ) (hx : 0 ≤ x) : 0 ≤ acesCurve x := by
  unfold acesCurve
  exact div_nonneg (mul_nonneg hx (by linarith)) (acesCurve_den_pos x hx).le

/-- In exact arithmetic the curve is strictly increasing on non-negative inputs. -/
theorem acesCurve_strictMono (x y : ℚ) (hx : 0 ≤ x) (hxy : x < y) :
    acesCurve x < acesCurve y := by
  have hy : 0 ≤ y := le_trans hx hxy.le
  unfold acesCurve
  rw [div_lt_div_iff₀ (acesCurve_den_pos x hx) (acesCurve_den_pos y hy)]
  have key : y * (251 / 100 * y + 3 / 100) * (x * (243 / 100 * x + 59 / 100) + 14 / 100) -
      x * (251 / 100 * x + 3 / 100) * (y * (243 / 100 * y + 59 / 100) + 14 / 100) =
      (y - x) * (176 / 125 * (x * y) + 3514 / 10000 * (x + y) + 42 / 10000) := by ring
  have hpos : 0 < (y - x) * (176 / 125 * (x * y) + 3514 / 10000 * (x + y) + 42 / 10000) := by
    apply mul_pos (by linarith)
    have := mul_nonneg hx hy
    linarith
  linarith

/-- In exact arithmetic the curve is non-decreasing on non-negative inputs. -/
theorem acesCurve_mono (x y : ℚ) (hx : 0 ≤ x) (hxy : x ≤ y) : acesCurve x ≤ acesCurve y := by
  rcases eq_or_lt_of_le hxy with rfl | h
  · exact le_refl _
  · exact (acesCurve_strictMono x y hx h).le

/-- `Saturate` lands in `[0, 1]`. -/
theorem Saturate_mem (v : ℚ) : 0 ≤ Saturate v ∧ Saturate v ≤ 1 := by
  unfold Saturate
  exact ⟨le_min (by norm_num) (le_max_left 0 v), min_le_left 1 _⟩

/-- `Saturate` is non-decreasing. -/
theorem Saturate_mono (u v : ℚ) (h : u ≤ v) : Saturate u ≤ Saturate v := by
  unfold Saturate
  exact min_le_min (le_refl 1) (max_le_max (le_refl 0) h)

/-- `Saturate` is the identity on `[0, 1]`. -/
theorem Saturate_of_mem (v : ℚ) (h0 : 0 ≤ v) (h1 : v ≤ 1) : Saturate v = v := by
  unfold Saturate
  rw [max_eq_right h0, min_eq_right h1]

/-- `Saturate` is 1 from 1 on. -/
theorem Saturate_of_one_le (v : ℚ) (h1 : 1 ≤ v) : Saturate v = 1 := by
  unfold Saturate
  rw [max_eq_right (by linarith), min_eq_left h1]

/-- In exact arithmetic the scalar map is non-decreasing on all inputs. -/
theorem tonemapChannel_mono (x y : ℚ) (h : x ≤ y) : tonemapChannel x ≤ tonemapChannel y := by
  unfold tonemapChannel ClampNegative
  exact Saturate_mono _ _ (acesCurve_mono _ _ (le_max_left 0 x) (max_le_max (le_refl 0) h))

/-- The scalar map is 0 on inputs that are not positive. -/
theorem tonemapChannel_of_nonpos (x : ℚ) (h : x ≤ 0) : tonemapChannel x = 0 := by
  unfold tonemapChannel ClampNegative
  rw [max_eq_left h]
  norm_num [acesCurve, Saturate]

/-- The scalar map sees its input only through the clamp to non-negative values. -/
theorem tonemapChannel_clamp (x : ℚ) : tonemapChannel x = tonemapChannel (max 0 x) := by
  unfold tonemapChannel ClampNegative
  rw [max_eq_right (le_max_left 0 x)]

/-- In exact arithmetic the scalar map is strictly increasing on non-negative inputs
below saturation. -/
theorem tonemapChannel_strictMono (x y : ℚ) (hx : 0 ≤ x) (hxy : x < y)
    (hsat : tonemapChannel x < 1) : tonemapChannel x < tonemapChannel y := by
  have hy : 0 ≤ y := le_trans hx hxy.le
  have hlt := acesCurve_strictMono x y hx hxy
  have h0 := acesCurve_nonneg x hx
  unfold tonemapChannel ClampNegative at hsat ⊢
  rw [max_eq_right hx] at hsat ⊢
  rw [max_eq_right hy]
  have hx1 : acesCurve x < 1 := by
    by_contra hge
    rw [Saturate_of_one_le _ (not_lt.mp hge)] at hsat
    exact lt_irrefl _ hsat
  rw [Saturate_of_mem _ h0 hx1.le]
  by_cases hy1 : acesCurve y ≤ 1
  · rw [Saturate_of_mem _ (le_trans h0 hlt.le) hy1]
    exact hlt
  · rw [Saturate_of_one_le _ (not_le.mp hy1).le]
    exact hx1

/-- The scalar map is 1 at the inputs 10 and 20. -/
theorem tonemapChannel_ten_twenty : tonemapChannel 10 = 1 ∧ tonemapChannel 20 = 1 := by
  constructor <;> norm_num [tonemapChannel, ClampNegative, acesCurve, Saturate]

/-- C17. For every input colour, negative and arbitrarily large channels included, every
channel of the result of `ACESFilm` lies in the closed interval `[0, 1]`. -/
theorem ACESFilm_range (v : Vector3) :
    (0 ≤ (ACESFilm v).x ∧ (ACESFilm v).x ≤ 1) ∧
    (0 ≤ (ACESFilm v).y ∧ (ACESFilm v).y ≤ 1) ∧
    (0 ≤ (ACESFilm v).z ∧ (ACESFilm v).z ≤ 1) := by
  rw [ACESFilm_channels]
  exact ⟨Saturate_mem _, Saturate_mem _, Saturate_mem _⟩

/-- C20. For every input channel `x ≤ 0` the corresponding output channel of `ACESFilm`
is exactly 0; black maps to black, and a colour gives the same result as the colour with
its negative channels clamped to 0. -/
theorem ACESFilm_nonpos (v : Vector3) :
    (v.x ≤ 0 → (ACESFilm v).x = 0) ∧ (v.y ≤ 0 → (ACESFilm v).y = 0) ∧
    (v.z ≤ 0 → (ACESFilm v).z = 0) ∧
    ACESFilm ⟨0, 0, 0⟩ = ⟨0, 0, 0⟩ ∧
    ACESFilm v = ACESFilm ⟨max 0 v.x, max 0 v.y, max 0 v.z⟩ := by
  refine ⟨?_, ?_, ?_, ?_, ?_⟩
  · rw [ACESFilm_channels]; exact tonemapChannel_of_nonpos _
  · rw [ACESFilm_channels]; exact tonemapChannel_of_nonpos _
  · rw [ACESFilm_channels]; exact tonemapChannel_of_nonpos _
  · rw [ACESFilm_channels]
    show Vector3.mk (tonemapChannel 0) (tonemapChannel 0) (tonemapChannel 0) = _
    rw [tonemapChannel_of_nonpos 0 (le_refl 0)]
  · rw [ACESFilm_channels, ACESFilm_channels]
    show _ = Vector3.mk (tonemapChannel (max 0 v.x)) (tonemapChannel (max 0 v.y))
      (tonemapChannel (max 0 v.z))
    rw [← tonemapChannel_clamp, ← tonemapChannel_clamp, ← tonemapChannel_clamp]

/-- C20, at the colour `(-1, -0.5, 0)`. -/
theorem ACESFilm_nonpos_witness :
    (ACESFilm ⟨-1, -1 / 2, 0⟩).x = 0 ∧ (ACESFilm ⟨-1, -1 / 2, 0⟩).y = 0 ∧
    (ACESFilm ⟨-1, -1 / 2, 0⟩).z = 0 :=
  ⟨(ACESFilm_nonpos ⟨-1, -1 / 2, 0⟩).1 (by show (-1 : ℚ) ≤ 0; norm_num),
    (ACESFilm_nonpos ⟨-1, -1 / 2, 0⟩).2.1 (by show (-1 / 2 : ℚ) ≤ 0; norm_num),
    (ACESFilm_nonpos ⟨-1, -1 / 2, 0⟩).2.2.1 (by show (0 : ℚ) ≤ 0; norm_num)⟩

/-- The extension of a file name without separator is a suffix of the name with no dot
and no separator in it, and a directory part in front of the name does not change it. -/
theorem GetFileExtension_of_name (name : List CChar) (hname : SepFree name)
    (hn : NulFree name) :
    (GetFileExtension (some name) <:+ name ∧ (46 : CChar) ∉ GetFileExtension (some name) ∧
      SepFree (GetFileExtension (some name))) ∧
    ∀ (pre : List CChar) (sep : CChar), IsSep sep → NulFree (pre ++ sep :: name) →
      GetFileExtension (some (pre ++ sep :: name)) = GetFileExtension (some name) := by
  rcases last_split (fun c => c = 46) name with hno | ⟨n1, x, ext, hsplit, hx, hext⟩
  · have hdot : (46 : CChar) ∉ name := fun h => hno 46 h rfl
    have e := GetFileExtension_of_no_dot name hdot
    rw [e]
    refine ⟨⟨List.nil_suffix, by simp, fun c hc => by simp at hc⟩, ?_⟩
    intro pre sep hsep hp
    exact GetFileExtension_of_dotless_name pre name sep hsep hname hdot hp
  · have hx46 : x = 46 := hx
    subst hx46
    subst hsplit
    have hdot : (46 : CChar) ∉ ext := fun h => hext 46 h rfl
    have hsepExt : SepFree ext := fun c hc => hname c (by simp [hc])
    have e := GetFileExtension_of_split n1 ext hn hdot hsepExt
    rw [e]
    refine ⟨⟨⟨n1 ++ [46], by simp⟩, hdot, hsepExt⟩, ?_⟩
    intro pre sep hsep hp
    have hassoc : pre ++ sep :: (n1 ++ 46 :: ext) = (pre ++ sep :: n1) ++ 46 :: ext := by simp
    rw [hassoc] at hp ⊢
    exact GetFileExtension_of_split (pre ++ sep :: n1) ext hp hdot hsepExt

/-- C24. For every non-null path `p`, the extension of `GetFilename(p)` is the extension
of `p`, and `GetFileExtension(p)` is a suffix of `GetFilename(p)` that holds no `'.'`, no
`'/'` and no backslash. -/
theorem GetFileExtension_GetFilename (p : List CChar) (hp : NulFree p) :
    GetFileExtension (some (GetFilename (some p))) = GetFileExtension (some p) ∧
    GetFileExtension (some p) <:+ GetFilename (some p) ∧
    (46 : CChar) ∉ GetFileExtension (some p) ∧ SepFree (GetFileExtension (some p)) := by
  rcases last_split IsSep p with hfree | ⟨pre, sep, name, hsplit, hsep, hname⟩
  · rw [GetFilename_of_sepFree p hfree]
    exact ⟨rfl, (GetFileExtension_of_name p hfree hp).1⟩
  · subst hsplit
    have hn : NulFree name := fun c hc => hp c (by simp [hc])
    have h := GetFileExtension_of_name name hname hn
    rw [GetFilename_of_split pre name sep hsep hname hp, h.2 pre sep hsep hp]
    exact ⟨rfl, h.1⟩

/-- C24, at `"a.b/c.tar.gz"`. -/
theorem GetFileExtension_GetFilename_witness :
    NulFree [97, 46, 98, 47, 99, 46, 116, 97, 114, 46, 103, 122] ∧
    GetFileExtension (some (GetFilename (some [97, 46, 98, 47, 99, 46, 116, 97, 114, 46, 103, 122])))
      = GetFileExtension (some [97, 46, 98, 47, 99, 46, 116, 97, 114, 46, 103, 122]) ∧
    GetFileExtension (some [97, 46, 98, 47, 99, 46, 116, 97, 114, 46, 103, 122]) <:+
      GetFilename (some [97, 46, 98, 47, 99, 46, 116, 97, 114, 46, 103, 122]) ∧
    (46 : CChar) ∉ GetFileExtension (some [97, 46, 98, 47, 99, 46, 116, 97, 114, 46, 103, 122]) ∧
    SepFree (GetFileExtension (some [97, 46, 98, 47, 99, 46, 116, 97, 114, 46, 103, 122])) :=
  ⟨by decide,
    GetFileExtension_GetFilename [97, 46, 98, 47, 99, 46, 116, 97, 114, 46, 103, 122] (by decide)⟩

/-- In exact arithmetic the scalar map is exactly 1 from the input 10 on. -/
theorem tonemapChannel_of_ten_le (x : ℚ) (h : 10 ≤ x) : tonemapChannel x = 1 := by
  apply le_antisymm
  · exact (Saturate_mem _).2
  · have hm := tonemapChannel_mono 10 x h
    rw [tonemapChannel_ten_twenty.1] at hm
    exact hm

/-- The scalar map at the inputs 0.18, 0.5 and 2, as exact fractions. -/
theorem tonemapChannel_reference :
    tonemapChannel (18 / 100) = 21681 / 81233 ∧ tonemapChannel (1 / 2) = 257 / 417 ∧
      tonemapChannel 2 = 505 / 552 := by
  refine ⟨?_, ?_, ?_⟩ <;> norm_num [tonemapChannel, ClampNegative, acesCurve, Saturate]

/-- C23. `ACESFilm` is within 0.01 of the reference values: the input 0.18 on every
channel gives 0.267 on every channel up to 0.01, the input 0.5 gives 0.616 and the input
2.0 gives 0.923. -/
theorem ACESFilm_reference_values :
    (|(ACESFilm ⟨18 / 100, 18 / 100, 18 / 100⟩).x - 267 / 1000| ≤ 1 / 100 ∧
      |(ACESFilm ⟨18 / 100, 18 / 100, 18 / 100⟩).y - 267 / 1000| ≤ 1 / 100 ∧
      |(ACESFilm ⟨18 / 100, 18 / 100, 18 / 100⟩).z - 267 / 1000| ≤ 1 / 100) ∧
    (|(ACESFilm ⟨1 / 2, 1 / 2, 1 / 2⟩).x - 616 / 1000| ≤ 1 / 100 ∧
      |(ACESFilm ⟨1 / 2, 1 / 2, 1 / 2⟩).y - 616 / 1000| ≤ 1 / 100 ∧
      |(ACESFilm ⟨1 / 2, 1 / 2, 1 / 2⟩).z - 616 / 1000| ≤ 1 / 100) ∧
    (|(ACESFilm ⟨2, 2, 2⟩).x - 923 / 1000| ≤ 1 / 100 ∧
      |(ACESFilm ⟨2, 2, 2⟩).y - 923 / 1000| ≤ 1 / 100 ∧
      |(ACESFilm ⟨2, 2, 2⟩).z - 923 / 1000| ≤ 1 / 100) := by
  have h18 : |tonemapChannel (18 / 100) - 267 / 1000| ≤ 1 / 100 := by
    rw [tonemapChannel_reference.1, abs_le]
    constructor <;> norm_num
  have h50 : |tonemapChannel (1 / 2) - 616 / 1000| ≤ 1 / 100 := by
    rw [tonemapChannel_reference.2.1, abs_le]
    constructor <;> norm_num
  have h2 : |tonemapChannel 2 - 923 / 1000| ≤ 1 / 100 := by
    rw [tonemapChannel_reference.2.2, abs_le]
    constructor <;> norm_num
  rw [ACESFilm_channels, ACESFilm_channels, ACESFilm_channels]
  exact ⟨⟨h18, h18, h18⟩, ⟨h50, h50, h50⟩, ⟨h2, h2, h2⟩⟩

/-- Fuel beyond the room left in the destination does not change the loop: when the
fuel is used up the loop condition has failed already. -/
theorem StringCopyMem.loop_fuel (pDest pSrc : Nat) (n : Int) (extra : Nat) :
    ∀ (fuel i : Nat) (m : Buffer), (n - 1 - i).toNat ≤ fuel →
      StringCopyMem.loop pDest pSrc n (fuel + extra) i m = StringCopyMem.loop pDest pSrc n fuel i m
  | 0, i, m, h => by
    cases extra with
    | zero => rfl
    | succ e =>
      have hc : ¬ ((i : Int) < n - 1 ∧ m (pSrc + i) ≠ 0) := fun hc => by omega
      simp only [Nat.zero_add, StringCopyMem.loop, if_neg hc]
  | fuel + 1, i, m, h => by
    have e : fuel + 1 + extra = (fuel + extra) + 1 := by omega
    rw [e]
    by_cases hc : (i : Int) < n - 1 ∧ m (pSrc + i) ≠ 0
    · simp only [StringCopyMem.loop, if_pos hc]
      exact StringCopyMem.loop_fuel pDest pSrc n extra fuel (i + 1) _ (by omega)
    · simp only [StringCopyMem.loop, if_neg hc]

/-- The loop only advances `i`, and not beyond `nDestSize - 1`. -/
theorem StringCopyMem.loop_bound (pDest pSrc : Nat) (n : Int) :
    ∀ (fuel i : Nat) (m : Buffer),
      i ≤ (StringCopyMem.loop pDest pSrc n fuel i m).1 ∧
        ((StringCopyMem.loop pDest pSrc n fuel i m).1 : Int) ≤ max (i : Int) (n - 1)
  | 0, i, m => by simp [StringCopyMem.loop]
  | fuel + 1, i, m => by
    by_cases hc : (i : Int) < n - 1 ∧ m (pSrc + i) ≠ 0
    · have ih := StringCopyMem.loop_bound pDest pSrc n fuel (i + 1)
        (m.write (pDest + i) (m (pSrc + i)))
      simp only [StringCopyMem.loop, if_pos hc]
      have := hc.1
      omega
    · simp only [StringCopyMem.loop, if_neg hc]
      omega

/-- The loop changes no byte of memory outside `pDest[i .. final i)`. -/
theorem StringCopyMem.loop_untouched (pDest pSrc : Nat) (n : Int) :
    ∀ (fuel i : Nat) (m : Buffer) (a : Nat),
      (∀ j, i ≤ j → j < (StringCopyMem.loop pDest pSrc n fuel i m).1 → a ≠ pDest + j) →
      (StringCopyMem.loop pDest pSrc n fuel i m).2 a = m a
  | 0, i, m, a, _ => by simp [StringCopyMem.loop]
  | fuel + 1, i, m, a, h => by
    by_cases hc : (i : Int) < n - 1 ∧ m (pSrc + i) ≠ 0
    · simp only [StringCopyMem.loop, if_pos hc] at h ⊢
      have hb := (StringCopyMem.loop_bound pDest pSrc n fuel (i + 1)
        (m.write (pDest + i) (m (pSrc + i)))).1
      rw [StringCopyMem.loop_untouched pDest pSrc n fuel (i + 1) _ a
        (fun j hj1 hj2 => h j (by omega) hj2)]
      have hne : a ≠ pDest + i := h i (le_refl i) (by omega)
      simp only [Buffer.write, if_neg hne]
    · simp only [StringCopyMem.loop, if_neg hc]

/-- The bytes of a C string held in memory are not NUL, and the byte after them is. -/
theorem getD_eq_zero_iff_of_nulFree (s : List CChar) (hs : NulFree s) (j : Nat)
    (hj : j ≤ s.length) : s.getD j 0 = 0 ↔ j = s.length := by
  constructor
  · intro h
    by_contra hne
    have hlt : j < s.length := by omega
    rw [List.getD_eq_getElem _ _ hlt] at h
    exact hs _ (List.getElem_mem hlt) h
  · intro h
    rw [h, List.getD_eq_default _ _ (le_refl _)]

/-- When the destination does not point into the source string behind its first byte,
the loop copies the source bytes: it stops after the smaller of the bytes left in the
source and the room left in the destination, with the source bytes in the destination. -/
theorem StringCopyMem.loop_copy (pDest pSrc : Nat) (n : Int) (s : List CChar)
    (hs : NulFree s) (hsep : pDest ≤ pSrc ∨ pSrc + s.length < pDest) :
    ∀ (fuel i : Nat) (m : Buffer), (n - 1 - i).toNat ≤ fuel → i ≤ s.length →
      (∀ j, i ≤ j → j ≤ s.length → m (pSrc + j) = s.getD j 0) →
      (StringCopyMem.loop pDest pSrc n fuel i m).1 = i + min (s.length - i) (n - 1 - i).toNat ∧
      ∀ j, i ≤ j → j < (StringCopyMem.loop pDest pSrc n fuel i m).1 →
        (StringCopyMem.loop pDest pSrc n fuel i m).2 (pDest + j) = s.getD j 0
  | 0, i, m, hf, hi, hm => by
    simp only [StringCopyMem.loop]
    exact ⟨by omega, fun j h1 h2 => by omega⟩
  | fuel + 1, i, m, hf, hi, hm => by
    have hmi := hm i (le_refl i) hi
    have hz := getD_eq_zero_iff_of_nulFree s hs i hi
    by_cases hc : (i : Int) < n - 1 ∧ m (pSrc + i) ≠ 0
    · have hlt : i < s.length := by
        have hne : s.getD i 0 ≠ 0 := by rw [← hmi]; exact hc.2
        have : i ≠ s.length := fun e => hne (hz.mpr e)
        omega
      have hm' : ∀ j, i + 1 ≤ j → j ≤ s.length →
          (m.write (pDest + i) (m (pSrc + i))) (pSrc + j) = s.getD j 0 := by
        intro j h1 h2
        have hne : pSrc + j ≠ pDest + i := by omega
        simp only [Buffer.write, if_neg hne]
        exact hm j (by omega) h2
      have ih := StringCopyMem.loop_copy pDest pSrc n s hs hsep fuel (i + 1)
        (m.write (pDest + i) (m (pSrc + i))) (by omega) (by omega) hm'
      have hc1 := hc.1
      simp only [StringCopyMem.loop, if_pos hc]
      refine ⟨by rw [ih.1]; omega, ?_⟩
      intro j h1 h2
      rcases Nat.eq_or_lt_of_le h1 with rfl | hlt'
      · rw [StringCopyMem.loop_untouched pDest pSrc n fuel (i + 1) _ (pDest + i)
          (fun j hj1 _ => by omega)]
        simp only [Buffer.write, if_true]
        exact hmi
      · exact ih.2 j (by omega) h2
    · simp only [StringCopyMem.loop, if_neg hc]
      refine ⟨?_, fun j h1 h2 => by omega⟩
      by_cases h1 : (i : Int) < n - 1
      · have h0 : m (pSrc + i) = 0 := by
          by_contra hne
          exact hc ⟨h1, hne⟩
        have : i = s.length := hz.mp (by rw [← hmi]; exact h0)
        omega
      · omega

/-- The call with valid arguments on one memory, unfolded. -/
theorem StringCopyMem_valid (m : Buffer) (pDest pSrc : Nat) (n : Int) (hn : 1 ≤ n) :
    StringCopyMem m (some pDest) (some pSrc) n =
      (((StringCopyMem.loop pDest pSrc n n.toNat 0 m).1 : Int),
        (StringCopyMem.loop pDest pSrc n n.toNat 0 m).2.write
          (pDest + (StringCopyMem.loop pDest pSrc n n.toNat 0 m).1) 0) := by
  have hn' : ¬ n ≤ 0 := by omega
  simp only [StringCopyMem, if_neg hn']

/-- C1 fails when the destination points into the source string. In the memory that
holds `"abc"` at address 0, `StringCopy(buf + 1, buf, 8)` reads back the bytes it has just
stored, never meets the NUL, and returns 7, not `min(3, 7)`. -/
theorem StringCopyMem_overlap_count :
    ¬ ((1 : Int) ≤ 8 → HoldsStr (Buffer.ofList [97, 98, 99]) 0 [97, 98, 99] →
      (StringCopyMem (Buffer.ofList [97, 98, 99]) (some 1) (some 0) 8).1 =
        min ((List.length ([97, 98, 99] : List CChar) : Nat) : Int) (8 - 1)) := by
  decide

/-- C1, amended. In a memory that holds the C string `s` at `pSrc`, for a capacity
`n ≥ 1` and a destination that does not point into the source string behind its first
byte (`pDest ≤ pSrc` or `pDest > pSrc + length s`, as for buffers that do not overlap),
`StringCopy` returns `k = min(length s, n - 1)`, the first `k` bytes of the destination
are the first `k` bytes of `s`, byte `k` is NUL, and no earlier byte of the destination is
NUL: the string left in the destination has length exactly `k`. -/
theorem StringCopyMem_copies_prefix (m : Buffer) (pDest pSrc : Nat) (s : List CChar)
    (n : Int) (hn : 1 ≤ n) (hs : HoldsStr m pSrc s)
    (hsep : pDest ≤ pSrc ∨ pSrc + s.length < pDest) :
    ∃ (k : Nat) (m' : Buffer),
      StringCopyMem m (some pDest) (some pSrc) n = ((k : Int), m') ∧
      (k : Int) = min (s.length : Int) (n - 1) ∧
      (List.range k).map (fun j => m' (pDest + j)) = s.take k ∧
      m' (pDest + k) = 0 ∧ ∀ j, j < k → m' (pDest + j) ≠ 0 := by
  have hcopy := StringCopyMem.loop_copy pDest pSrc n s hs.1 hsep n.toNat 0 m (by omega)
    (Nat.zero_le _) (fun j _ hj => hs.2 j (by omega))
  have hval := StringCopyMem_valid m pDest pSrc n hn
  obtain ⟨k, hk⟩ : ∃ k, k = (StringCopyMem.loop pDest pSrc n n.toNat 0 m).1 := ⟨_, rfl⟩
  rw [← hk] at hcopy hval
  have hk1 := hcopy.1
  have hbyte : ∀ j, j < k →
      ((StringCopyMem.loop pDest pSrc n n.toNat 0 m).2.write (pDest + k) 0) (pDest + j)
        = s.getD j 0 := by
    intro j hj
    have hne : pDest + j ≠ pDest + k := by omega
    simp only [Buffer.write, if_neg hne]
    exact hcopy.2 j (Nat.zero_le j) hj
  refine ⟨k, _, hval, by omega, ?_, ?_, ?_⟩
  · apply List.ext_getElem
    · rw [List.length_map, List.length_range, List.length_take]; omega
    · intro j h1 h2
      have hj : j < k := by
        rw [List.length_map, List.length_range] at h1; exact h1
      have hjs : j < s.length := by omega
      rw [List.getElem_map, List.getElem_range, List.getElem_take, hbyte j hj,
        List.getD_eq_getElem _ _ hjs]
  · simp only [Buffer.write, if_true]
  · intro j hj
    rw [hbyte j hj]
    intro h0
    have := (getD_eq_zero_iff_of_nulFree s hs.1 j (by omega)).mp h0
    omega

/-- C1 amended, at `StringCopy(buf + 10, buf, 4)` with `"Hello"` at `buf`. -/
theorem StringCopyMem_copies_prefix_witness :
    (1 : Int) ≤ 4 ∧ HoldsStr (Buffer.ofList [72, 101, 108, 108, 111]) 0 [72, 101, 108, 108, 111] ∧
    (10 ≤ 0 ∨ 0 + List.length ([72, 101, 108, 108, 111] : List CChar) < 10) ∧
    ∃ (k : Nat) (m' : Buffer),
      StringCopyMem (Buffer.ofList [72, 101, 108, 108, 111]) (some 10) (some 0) 4
        = ((k : Int), m') ∧
      (k : Int) = min (List.length ([72, 101, 108, 108, 111] : List CChar) : Int) (4 - 1) ∧
      (List.range k).map (fun j => m' (10 + j)) = List.take k [72, 101, 108, 108, 111] ∧
      m' (10 + k) = 0 ∧ ∀ j, j < k → m' (10 + j) ≠ 0 :=
  ⟨by decide, by decide, by decide,
    StringCopyMem_copies_prefix (Buffer.ofList [72, 101, 108, 108, 111]) 10 0
      [72, 101, 108, 108, 111] 4 (by decide) (by decide) (by decide)⟩

/-- C4 fails when the destination points into the source string. In the memory that
holds `"abc"` at address 0, `StringCopy(buf + 1, buf, 8)` changes the destination byte at
index 4, which is above `min(3, 7)`. -/
theorem StringCopyMem_overlap_writes :
    ¬ (HoldsStr (Buffer.ofList [97, 98, 99]) 0 [97, 98, 99] →
      min ((List.length ([97, 98, 99] : List CChar) : Nat) : Int) (8 - 1) < ((4 : Nat) : Int) →
      (StringCopyMem (Buffer.ofList [97, 98, 99]) (some 1) (some 0) 8).2 (1 + 4) =
        Buffer.ofList [97, 98, 99] (1 + 4)) := by
  decide

/-- C4, amended. For every memory, destination, source (null included) and capacity `n`,
the call returns a count `k` with `0 ≤ k ≤ max(0, n - 1)` and changes no byte of memory
outside `dest[0..k]`: every destination byte at an index above `k` is unchanged and no
byte at an index `≥ n` is changed. When the source is the C string `s`, `n ≥ 1` and the
destination does not point into `s` behind its first byte, `k` is `min(length s, n - 1)`.
A call with a null destination changes nothing. -/
theorem StringCopyMem_frame (m : Buffer) (pDest : Nat) (pSrc : Option Nat) (n : Int) :
    (∃ (k : Nat) (m' : Buffer),
      StringCopyMem m (some pDest) pSrc n = ((k : Int), m') ∧
      (k : Int) ≤ max 0 (n - 1) ∧
      (∀ a : Nat, a < pDest ∨ pDest + k < a → m' a = m a) ∧
      (∀ j : Nat, k < j → m' (pDest + j) = m (pDest + j)) ∧
      (∀ j : Nat, n ≤ (j : Int) → m' (pDest + j) = m (pDest + j)) ∧
      (∀ (src : Nat) (s : List CChar), pSrc = some src → HoldsStr m src s → 1 ≤ n →
        (pDest ≤ src ∨ src + s.length < pDest) → (k : Int) = min (s.length : Int) (n - 1))) ∧
    StringCopyMem m none pSrc n = (0, m) := by
  refine ⟨?_, rfl⟩
  by_cases hn : 1 ≤ n
  · cases pSrc with
    | none =>
      exact ⟨0, m, rfl, by omega, fun _ _ => rfl, fun _ _ => rfl, fun _ _ => rfl,
        fun _ _ h => by cases h⟩
    | some src =>
      have hval := StringCopyMem_valid m pDest src n hn
      have hb := StringCopyMem.loop_bound pDest src n n.toNat 0 m
      obtain ⟨k, hk⟩ : ∃ k, k = (StringCopyMem.loop pDest src n n.toNat 0 m).1 := ⟨_, rfl⟩
      rw [← hk] at hval hb
      have key : ∀ a : Nat, a < pDest ∨ pDest + k < a →
          ((StringCopyMem.loop pDest src n n.toNat 0 m).2.write (pDest + k) 0) a = m a := by
        intro a ha
        have hne : a ≠ pDest + k := by omega
        simp only [Buffer.write, if_neg hne]
        exact StringCopyMem.loop_untouched pDest src n n.toNat 0 m a
          (fun j _ hj => by rw [← hk] at hj; omega)
      refine ⟨k, _, hval, by omega, key, fun j hj => key _ (by omega),
        fun j hj => key _ (by omega), ?_⟩
      intro src' s hsrc hs _ hsep
      cases hsrc
      have hcopy := StringCopyMem.loop_copy pDest src n s hs.1 hsep n.toNat 0 m (by omega)
        (Nat.zero_le _) (fun j _ hj => hs.2 j (by omega))
      rw [← hk] at hcopy
      omega
  · have hn' : n ≤ 0 := by omega
    have hval : StringCopyMem m (some pDest) pSrc n = (((0 : Nat) : Int), m) := by
      cases pSrc with
      | none => rfl
      | some src => simp only [StringCopyMem, if_pos hn']; rfl
    exact ⟨0, m, hval, by omega, fun _ _ => rfl, fun _ _ => rfl, fun _ _ => rfl,
      fun _ _ _ _ h => by omega⟩

/-- C4 amended, at `StringCopy(buf + 1, buf, 8)` with `"abc"` at `buf`: the returned
count is 7 and the bytes from index 8 of the destination on are unchanged. -/
theorem StringCopyMem_frame_witness :
    ∃ (k : Nat) (m' : Buffer),
      StringCopyMem (Buffer.ofList [97, 98, 99]) (some 1) (some 0) 8 = ((k : Int), m') ∧
      (k : Int) ≤ max 0 (8 - 1) ∧
      (∀ j : Nat, k < j → m' (1 + j) = Buffer.ofList [97, 98, 99] (1 + j)) ∧
      (∀ j : Nat, (8 : Int) ≤ (j : Int) → m' (1 + j) = Buffer.ofList [97, 98, 99] (1 + j)) :=
  match (StringCopyMem_frame (Buffer.ofList [97, 98, 99]) 1 (some 0) 8).1 with
  | ⟨k, m', h1, h2, _, h4, h5, _⟩ => ⟨k, m', h1, h2, h4, h5⟩

/-- On a source string that the destination does not point into behind its first byte,
the call on one memory and the call on separate objects agree: they return the same count
and leave the same bytes in the destination. -/
theorem StringCopyMem_agrees (m : Buffer) (pDest pSrc : Nat) (s : List CChar) (n : Int)
    (hs : HoldsStr m pSrc s) (hsep : pDest ≤ pSrc ∨ pSrc + s.length < pDest) :
    ∃ d', StringCopy (some (fun j => m (pDest + j))) (some s) n =
        ((StringCopyMem m (some pDest) (some pSrc) n).1, some d') ∧
      ∀ j, (StringCopyMem m (some pDest) (some pSrc) n).2 (pDest + j) = d' j := by
  by_cases hn : 1 ≤ n
  · have hcopy := StringCopyMem.loop_copy pDest pSrc n s hs.1 hsep n.toNat 0 m (by omega)
      (Nat.zero_le _) (fun j _ hj => hs.2 j (by omega))
    have hlen := strlen_eq_length s hs.1
    have hfst := StringCopy.loop_fst n s 0 (fun j => m (pDest + j))
    have e : (n - 1 - ((0 : Nat) : Int)).toNat = (n - 1).toNat := by simp
    rw [e, Nat.zero_add, hlen] at hfst
    rw [StringCopy_valid _ s n hn, StringCopyMem_valid m pDest pSrc n hn, hlen]
    obtain ⟨k, hk⟩ : ∃ k, k = (StringCopyMem.loop pDest pSrc n n.toNat 0 m).1 := ⟨_, rfl⟩
    rw [← hk] at hcopy ⊢
    have hk' : k = min s.length (n - 1).toNat := by
      have := hcopy.1
      omega
    rw [← hk'] at hfst ⊢
    refine ⟨_, rfl, ?_⟩
    intro j
    by_cases hjk : j = k
    · subst hjk
      simp only [Buffer.write, if_true]
    · have hne : pDest + j ≠ pDest + k := by omega
      simp only [Buffer.write, if_neg hne, if_neg hjk]
      by_cases hlt : j < k
      · rw [hcopy.2 j (Nat.zero_le j) hlt,
          StringCopy.loop_copied n s 0 _ j (Nat.zero_le j) (by omega), Nat.sub_zero]
      · rw [StringCopyMem.loop_untouched pDest pSrc n n.toNat 0 m (pDest + j)
            (fun i _ hi => by rw [← hk] at hi; omega),
          StringCopy.loop_frame n s 0 _ j (Or.inr (by omega))]
  · have hn' : n ≤ 0 := by omega
    refine ⟨fun j => m (pDest + j), ?_, ?_⟩
    · simp only [StringCopy, StringCopyMem, if_pos hn']
    · intro j
      simp only [StringCopyMem, if_pos hn']

/-- The halving count started with `n` itself is the binary logarithm of the library. -/
theorem F32.log2Fuel_eq : ∀ (fuel n : Nat), n ≤ fuel → F32.log2Fuel fuel n = Nat.log2 n
  | 0, n, h => by
    have : n = 0 := by omega
    subst this
    rw [Nat.log2]
    simp [F32.log2Fuel]
  | fuel + 1, n, h => by
    rw [Nat.log2]
    by_cases h2 : n < 2
    · have : ¬ n ≥ 2 := by omega
      simp [F32.log2Fuel, h2, this]
    · have hge : n ≥ 2 := by omega
      have hlt : n / 2 ≤ fuel := by omega
      simp [F32.log2Fuel, h2, hge, F32.log2Fuel_eq fuel (n / 2) hlt]

/-- C18 fails on the code. In binary32, 5.0 and the next `float` above it (5 + 2^-21) give
0.985275626 and then 0.985275567: the output decreases although the input increases. And
the input 2^64, whose square is beyond the `float` range, gives 0, below the 1 that the
input 10 gives. -/
theorem ACESFilm32_not_monotone :
    F32.round 5 = .fin 5 ∧ F32.round (5 + 1 / 2 ^ 21) = .fin (5 + 1 / 2 ^ 21) ∧
    F32.lt (.fin 5) (.fin (5 + 1 / 2 ^ 21)) = true ∧
    (ACESFilm32 ⟨.fin 5, .fin 5, .fin 5⟩).x = .fin (8265091 / 8388608) ∧
    (ACESFilm32 ⟨.fin (5 + 1 / 2 ^ 21), .fin (5 + 1 / 2 ^ 21), .fin (5 + 1 / 2 ^ 21)⟩).x
      = .fin (16530181 / 16777216) ∧
    F32.lt (ACESFilm32 ⟨.fin (5 + 1 / 2 ^ 21), .fin (5 + 1 / 2 ^ 21), .fin (5 + 1 / 2 ^ 21)⟩).x
      (ACESFilm32 ⟨.fin 5, .fin 5, .fin 5⟩).x = true ∧
    F32.lt (.fin 10) (.fin (2 ^ 64)) = true ∧
    F32.lt (ACESFilm32 ⟨.fin (2 ^ 64), .fin (2 ^ 64), .fin (2 ^ 64)⟩).x
      (ACESFilm32 ⟨.fin 10, .fin 10, .fin 10⟩).x = true := by
  decide!

/-- C21 fails on the code. In binary32 the input 2^64 is a finite `float` above 1000; its
square is beyond the `float` range, so numerator and denominator are both infinite, the
quotient is NaN, and `Saturate` turns NaN into 0: the result is black, not within 0.001
of 1. The inputs 10 and 1000 give exactly 1. -/
theorem ACESFilm32_overflow :
    F32.round (2 ^ 64) = .fin (2 ^ 64) ∧ F32.le (.fin 1000) (.fin (2 ^ 64)) = true ∧
    F32.mul (.fin (2 ^ 64)) (F32.mul (F32.round (251 / 100)) (.fin (2 ^ 64))) = .inf false ∧
    acesQuot32 (.fin (2 ^ 64)) = .nan ∧
    ACESFilm32 ⟨.fin (2 ^ 64), .fin (2 ^ 64), .fin (2 ^ 64)⟩ = ⟨.fin 0, .fin 0, .fin 0⟩ ∧
    ACESFilm32 ⟨.fin 10, .fin 1000, .fin 1000⟩ = ⟨.fin 1, .fin 1, .fin 1⟩ := by
  decide!

end S15
